import Mathlib

/-!
Verification development for the pagecounts-search repository
(`src/pagecountssearch/search.py`).

Modelling conventions:
* Python `str` values are modelled as `List Char` (a Python string is a
  sequence of Unicode code points); `Str` below.  File contents are the
  list of lines exactly as Python's line iteration yields them, i.e.
  each line keeps its trailing `'\n'` (except possibly the last line of
  a file).
* Machine-independent data (counts, byte counts) are `Int`, matching
  Python's unbounded `int`.
* Fallible Python code (`ValueError`, `KeyError`, missing files, the
  `TypeError` raised by comparing `None` with a tuple) is modelled with
  `Option` / explicit error outcomes.
* `functools.lru_cache` on pure functions (`quote`, `unquote`,
  `parse_timestamp`) is a memoisation layer with no observable effect,
  so those are modelled directly as the underlying pure function.
  `lru_cache(1)` on the stateful `Finder.search` *is* observable and is
  modelled explicitly as a one-entry cache in the `Finder` state.
-/

/-- Python strings: sequences of Unicode code points. -/
abbrev Str := List Char

/-- Convenience: a `Str` from a Lean string literal. -/
def str (s : String) : Str := s.data

/-- The lookup key `(project, page)` used throughout the program. -/
abbrev Key := Str × Str

/-- Python string comparison `a < b`: lexicographic on code points. -/
def strLtB : Str → Str → Bool
  | [], [] => false
  | [], _ :: _ => true
  | _ :: _, [] => false
  | a :: as, b :: bs => a < b || (a = b && strLtB as bs)

/-- Python tuple comparison `(a₁,a₂) < (b₁,b₂)`: lexicographic on the
components, which are compared as strings. -/
def keyLtB (a b : Key) : Bool :=
  strLtB a.1 b.1 || (a.1 = b.1 && strLtB a.2 b.2)

/-- Python `a <= b` on keys (equivalently `b >= a`). -/
def keyLeB (a b : Key) : Bool :=
  keyLtB a b || a = b

theorem strLtB_irrefl (s : Str) : strLtB s s = false := by
  induction s with
  | nil => rfl
  | cons c cs ih => simp [strLtB, ih]

theorem strLtB_asymm {a b : Str} (h : strLtB a b = true) : strLtB b a = false := by
  induction a generalizing b with
  | nil =>
    cases b with
    | nil => simp [strLtB] at h
    | cons y ys => simp [strLtB]
  | cons x xs ih =>
    cases b with
    | nil => simp [strLtB] at h
    | cons y ys =>
      simp only [strLtB, Bool.or_eq_true, Bool.and_eq_true, decide_eq_true_eq] at h ⊢
      rcases h with h | ⟨rfl, h⟩
      · simp only [Bool.or_eq_false_iff, Bool.and_eq_false_iff]
        constructor
        · simp [not_lt_of_lt h]
        · left; simp [(ne_of_lt h).symm]
      · simp only [Bool.or_eq_false_iff, Bool.and_eq_false_iff]
        constructor
        · simp
        · right; exact ih h

theorem strLtB_trans {a b c : Str} (hab : strLtB a b = true)
    (hbc : strLtB b c = true) : strLtB a c = true := by
  induction a generalizing b c with
  | nil =>
    cases b with
    | nil => simp [strLtB] at hab
    | cons y ys =>
      cases c with
      | nil => simp [strLtB] at hbc
      | cons z zs => simp [strLtB]
  | cons x xs ih =>
    cases b with
    | nil => simp [strLtB] at hab
    | cons y ys =>
      cases c with
      | nil => simp [strLtB] at hbc
      | cons z zs =>
        simp only [strLtB, Bool.or_eq_true, Bool.and_eq_true, decide_eq_true_eq] at hab hbc ⊢
        rcases hab with hab | ⟨rfl, hab⟩
        · rcases hbc with hbc | ⟨rfl, hbc⟩
          · exact Or.inl (lt_trans hab hbc)
          · exact Or.inl hab
        · rcases hbc with hbc | ⟨rfl, hbc⟩
          · exact Or.inl hbc
          · exact Or.inr ⟨rfl, ih hab hbc⟩

theorem strLtB_conn {a b : Str} (hab : strLtB a b = false)
    (hba : strLtB b a = false) : a = b := by
  induction a generalizing b with
  | nil =>
    cases b with
    | nil => rfl
    | cons y ys => simp [strLtB] at hab
  | cons x xs ih =>
    cases b with
    | nil => simp [strLtB] at hba
    | cons y ys =>
      simp only [strLtB, Bool.or_eq_false_iff, Bool.and_eq_false_iff,
        decide_eq_false_iff_not] at hab hba
      obtain ⟨hxy, hab'⟩ := hab
      obtain ⟨hyx, hba'⟩ := hba
      have hxy' : x = y := le_antisymm (not_lt.mp (by simpa using hyx)) (not_lt.mp (by simpa using hxy))
      subst hxy'
      rcases hab' with h | h
      · exact absurd rfl h
      · rcases hba' with h' | h'
        · exact absurd rfl h'
        · exact congrArg (x :: ·) (ih h h')

theorem keyLtB_irrefl (k : Key) : keyLtB k k = false := by
  simp [keyLtB, strLtB_irrefl]

theorem keyLtB_trans {a b c : Key} (hab : keyLtB a b = true)
    (hbc : keyLtB b c = true) : keyLtB a c = true := by
  simp only [keyLtB, Bool.or_eq_true, Bool.and_eq_true, decide_eq_true_eq] at hab hbc ⊢
  rcases hab with hab | ⟨h1, hab⟩
  · rcases hbc with hbc | ⟨h2, hbc⟩
    · exact Or.inl (strLtB_trans hab hbc)
    · exact Or.inl (h2 ▸ hab)
  · rcases hbc with hbc | ⟨h2, hbc⟩
    · exact Or.inl (h1 ▸ hbc)
    · exact Or.inr ⟨h1.trans h2, strLtB_trans hab hbc⟩

theorem keyLtB_asymm {a b : Key} (h : keyLtB a b = true) : keyLtB b a = false := by
  by_contra hcon
  have hba : keyLtB b a = true := by
    cases hh : keyLtB b a
    · exact absurd hh hcon
    · rfl
  have := keyLtB_trans h hba
  simp [keyLtB_irrefl] at this

theorem keyLtB_conn {a b : Key} (hab : keyLtB a b = false)
    (hba : keyLtB b a = false) : a = b := by
  simp only [keyLtB, Bool.or_eq_false_iff, Bool.and_eq_false_iff,
    decide_eq_false_iff_not] at hab hba
  obtain ⟨h1, h2⟩ := hab
  obtain ⟨h3, h4⟩ := hba
  have hfst : a.1 = b.1 := strLtB_conn h1 h3
  rcases h2 with h | h
  · exact absurd hfst h
  · rcases h4 with h' | h'
    · exact absurd hfst.symm h'
    · have hsnd : a.2 = b.2 := strLtB_conn h h'
      exact Prod.ext hfst hsnd

/-- Trichotomy for the Python key order. -/
theorem keyLtB_tri (a b : Key) :
    keyLtB a b = true ∨ a = b ∨ keyLtB b a = true := by
  cases hab : keyLtB a b
  · cases hba : keyLtB b a
    · exact Or.inr (Or.inl (keyLtB_conn hab hba))
    · exact Or.inr (Or.inr rfl)
  · exact Or.inl rfl

theorem keyLeB_iff {a b : Key} :
    keyLeB a b = true ↔ keyLtB a b = true ∨ a = b := by
  simp [keyLeB]

theorem keyLeB_refl (a : Key) : keyLeB a a = true := by
  simp [keyLeB]

theorem keyLeB_of_lt {a b : Key} (h : keyLtB a b = true) : keyLeB a b = true := by
  simp [keyLeB, h]

theorem keyLtB_of_not_le {a b : Key} (h : keyLeB a b = false) : keyLtB b a = true := by
  simp only [keyLeB, Bool.or_eq_false_iff, decide_eq_false_iff_not] at h
  rcases keyLtB_tri a b with hh | hh | hh
  · exact absurd hh (by simp [h.1])
  · exact absurd hh h.2
  · exact hh

theorem keyLtB_of_le_of_lt {a b c : Key} (hab : keyLeB a b = true)
    (hbc : keyLtB b c = true) : keyLtB a c = true := by
  rcases keyLeB_iff.mp hab with h | rfl
  · exact keyLtB_trans h hbc
  · exact hbc

theorem keyLtB_of_lt_of_le {a b c : Key} (hab : keyLtB a b = true)
    (hbc : keyLeB b c = true) : keyLtB a c = true := by
  rcases keyLeB_iff.mp hbc with h | rfl
  · exact keyLtB_trans hab h
  · exact hab

theorem keyLeB_trans {a b c : Key} (hab : keyLeB a b = true)
    (hbc : keyLeB b c = true) : keyLeB a c = true := by
  rcases keyLeB_iff.mp hab with h | rfl
  · exact keyLeB_of_lt (keyLtB_of_lt_of_le h hbc)
  · exact hbc

theorem keyLeB_of_not_lt {a b : Key} (h : keyLtB a b = false) : keyLeB b a = true := by
  rcases keyLtB_tri a b with hh | hh | hh
  · exact absurd hh (by simp [h])
  · simp [keyLeB, hh]
  · exact keyLeB_of_lt hh

/-! ### Codec: percent-decoding (`urllib.parse.unquote`) and encoding
(`urllib.parse.quote`), modelled at the code-point level with real UTF-8
byte conversion, as CPython performs `str` → UTF-8 bytes → `str`. -/

/-- UTF-8 encoding of one code point (CPython `str.encode('utf-8')`,
restricted to the valid scalar values a `Char` can hold). -/
def utf8EncodeChar (c : Char) : List Nat :=
  let n := c.toNat
  if n < 0x80 then [n]
  else if n < 0x800 then [0xC0 + n / 64, 0x80 + n % 64]
  else if n < 0x10000 then
    [0xE0 + n / 4096, 0x80 + (n / 64) % 64, 0x80 + n % 64]
  else
    [0xF0 + n / 0x40000, 0x80 + (n / 4096) % 64, 0x80 + (n / 64) % 64, 0x80 + n % 64]

/-- U+FFFD, the replacement character used by `errors='replace'`. -/
def replChar : Char := Char.ofNat 0xFFFD

/-- UTF-8 decoding with replacement (`bytes.decode('utf-8', 'replace')`),
written with explicit fuel so that the recursion is structural (every
step consumes at least one byte, so `fuel = length` never runs out).
Valid sequences (no overlongs, no surrogates, ≤ U+10FFFF) decode exactly;
on an invalid sequence one replacement character is emitted and decoding
resumes after the offending lead byte (a simplification of CPython's
maximal-subpart rule that agrees with it on all well-formed input, which
is the only input the verified runs exercise). -/
def utf8dr : Nat → List Nat → Str
  | 0, _ => []
  | _ + 1, [] => []
  | fuel + 1, b :: rest =>
    if b < 0x80 then Char.ofNat b :: utf8dr fuel rest
    else if 0xC2 ≤ b ∧ b ≤ 0xDF then
      match rest with
      | b1 :: rest2 =>
        if 0x80 ≤ b1 ∧ b1 < 0xC0 then
          Char.ofNat ((b - 0xC0) * 64 + (b1 - 0x80)) :: utf8dr fuel rest2
        else replChar :: utf8dr fuel rest
      | [] => [replChar]
    else if 0xE0 ≤ b ∧ b ≤ 0xEF then
      match rest with
      | b1 :: b2 :: rest3 =>
        if (0x80 ≤ b1 ∧ b1 < 0xC0) ∧ (0x80 ≤ b2 ∧ b2 < 0xC0) ∧
            (b = 0xE0 → 0xA0 ≤ b1) ∧ (b = 0xED → b1 < 0xA0) then
          Char.ofNat ((b - 0xE0) * 4096 + (b1 - 0x80) * 64 + (b2 - 0x80)) ::
            utf8dr fuel rest3
        else replChar :: utf8dr fuel rest
      | _ => replChar :: utf8dr fuel rest
    else if 0xF0 ≤ b ∧ b ≤ 0xF4 then
      match rest with
      | b1 :: b2 :: b3 :: rest4 =>
        if (0x80 ≤ b1 ∧ b1 < 0xC0) ∧ (0x80 ≤ b2 ∧ b2 < 0xC0) ∧
            (0x80 ≤ b3 ∧ b3 < 0xC0) ∧
            (b = 0xF0 → 0x90 ≤ b1) ∧ (b = 0xF4 → b1 < 0x90) then
          Char.ofNat ((b - 0xF0) * 0x40000 + (b1 - 0x80) * 4096 +
              (b2 - 0x80) * 64 + (b3 - 0x80)) :: utf8dr fuel rest4
        else replChar :: utf8dr fuel rest
      | _ => replChar :: utf8dr fuel rest
    else replChar :: utf8dr fuel rest

/-- UTF-8 decoding with replacement of a whole byte run. -/
def utf8DecodeReplace (bs : List Nat) : Str := utf8dr bs.length bs

/-- Value of a hexadecimal digit (`unquote` accepts both cases). -/
def hexVal (c : Char) : Option Nat :=
  if '0' ≤ c ∧ c ≤ '9' then some (c.toNat - '0'.toNat)
  else if 'a' ≤ c ∧ c ≤ 'f' then some (c.toNat - 'a'.toNat + 10)
  else if 'A' ≤ c ∧ c ≤ 'F' then some (c.toNat - 'A'.toNat + 10)
  else none

/-- Tokens of a percent-encoded string: literal characters and the bytes
of `%XX` escapes. -/
inductive Tok where
  | ch (c : Char)
  | byte (b : Nat)
deriving DecidableEq

/-- First pass of `unquote`: recognise `%XX` escapes (a `%` not followed
by two hex digits stays literal, as in CPython). -/
def toks : Str → List Tok
  | [] => []
  | ['%'] => [.ch '%']
  | ['%', a] => [.ch '%', .ch a]
  | '%' :: a :: b :: rest2 =>
    match hexVal a, hexVal b with
    | some hi, some lo => .byte (16 * hi + lo) :: toks rest2
    | _, _ => .ch '%' :: toks (a :: b :: rest2)
  | c :: rest => .ch c :: toks rest

/-- Second pass of `unquote`: each maximal run of escape bytes is decoded
as UTF-8 with replacement; literal characters pass through.  `acc` holds
the bytes of the run being collected. -/
def decodeToks : List Tok → List Nat → Str
  | [], acc => utf8DecodeReplace acc
  | .byte b :: rest, acc => decodeToks rest (acc ++ [b])
  | .ch c :: rest, acc => utf8DecodeReplace acc ++ c :: decodeToks rest []

/-- `urllib.parse.unquote` with its default arguments
(`encoding='utf-8', errors='replace'`). -/
def unquote (s : Str) : Str := decodeToks (toks s) []

/-- Characters `quote` leaves unescaped: the always-safe set
`A-Z a-z 0-9 _ . - ~` plus the default `safe='/'`. -/
def quoteSafe (c : Char) : Bool :=
  ('A' ≤ c && c ≤ 'Z') || ('a' ≤ c && c ≤ 'z') || ('0' ≤ c && c ≤ '9') ||
  c = '_' || c = '.' || c = '-' || c = '~' || c = '/'

/-- Upper-case hexadecimal digit, as `quote` emits. -/
def hexDigU (n : Nat) : Char :=
  if n < 10 then Char.ofNat ('0'.toNat + n) else Char.ofNat ('A'.toNat + n - 10)

/-- `%XX` escape of one byte. -/
def percentEnc (b : Nat) : Str := ['%', hexDigU (b / 16), hexDigU (b % 16)]

/-- `urllib.parse.quote` with its default arguments: UTF-8 encode, keep
safe bytes, escape the rest. -/
def quote (s : Str) : Str :=
  s.flatMap fun c =>
    if quoteSafe c then [c] else (utf8EncodeChar c).flatMap percentEnc

/-! ### Python `int(str)` -/

/-- The whitespace `int()` strips (ASCII part of `str.strip()`; the data
format never produces the non-ASCII space code points). -/
def pyWsp (c : Char) : Bool :=
  c = ' ' || c = '\t' || c = '\n' || c = '\r' || c = '\x0b' || c = '\x0c'

def pyStrip (s : Str) : Str := ((s.dropWhile pyWsp).reverse.dropWhile pyWsp).reverse

def digitVal (c : Char) : Nat := c.toNat - '0'.toNat

/-- Digits continuing a literal; a single `_` is allowed between digits
(PEP 515). -/
def digGo : Str → Nat → Option Nat
  | [], acc => some acc
  | '_' :: c :: rest, acc =>
    if c.isDigit then digGo rest (acc * 10 + digitVal c) else none
  | '_' :: [], _ => none
  | c :: rest, acc => if c.isDigit then digGo rest (acc * 10 + digitVal c) else none

def pyNat : Str → Option Nat
  | c :: rest => if c.isDigit then digGo rest (digitVal c) else none
  | [] => none

/-- Python `int(s)` (base 10, ASCII digits): optional surrounding
whitespace, optional single sign, then a digit run. -/
def pyInt (s : Str) : Option Int :=
  match pyStrip s with
  | '+' :: rest => (pyNat rest).map Int.ofNat
  | '-' :: rest => (pyNat rest).map fun n => -(n : Int)
  | t => (pyNat t).map Int.ofNat

/-! ### `datetime.datetime.strptime(_, '%Y%m%d-%H%M%S')` -/

/-- Match two digits whose first digit lies in `[c1lo, c1hi]` and second
in `[c2lo, c2hi]` (one alternative of a CPython `_strptime` field regex). -/
def tryTwo (c1lo c1hi c2lo c2hi : Char) : Str → Option (Nat × Str)
  | a :: b :: rest =>
    if c1lo ≤ a ∧ a ≤ c1hi ∧ c2lo ≤ b ∧ b ≤ c2hi then
      some (digitVal a * 10 + digitVal b, rest)
    else none
  | _ => none

/-- Match one digit in `[lo, hi]`. -/
def tryOne (lo hi : Char) : Str → Option (Nat × Str)
  | a :: rest => if lo ≤ a ∧ a ≤ hi then some (digitVal a, rest) else none
  | [] => none

/-- `%Y`: exactly four digits. -/
def tryYear : Str → Option (Nat × Str)
  | a :: b :: c :: d :: rest =>
    if a.isDigit ∧ b.isDigit ∧ c.isDigit ∧ d.isDigit then
      some (digitVal a * 1000 + digitVal b * 100 + digitVal c * 10 + digitVal d, rest)
    else none
  | _ => none

/-- `%m` = `1[0-2]|0[1-9]|[1-9]`, alternatives in regex preference order. -/
def monthAlts (s : Str) : List (Nat × Str) :=
  [tryTwo '1' '1' '0' '2' s, tryTwo '0' '0' '1' '9' s, tryOne '1' '9' s].filterMap id

/-- `%d` = `3[01]|[1-2][0-9]|0[1-9]|[1-9]`. -/
def dayAlts (s : Str) : List (Nat × Str) :=
  [tryTwo '3' '3' '0' '1' s, tryTwo '1' '2' '0' '9' s,
   tryTwo '0' '0' '1' '9' s, tryOne '1' '9' s].filterMap id

/-- `%H` = `2[0-3]|[0-1][0-9]|[0-9]`. -/
def hourAlts (s : Str) : List (Nat × Str) :=
  [tryTwo '2' '2' '0' '3' s, tryTwo '0' '1' '0' '9' s, tryOne '0' '9' s].filterMap id

/-- `%M` = `[0-5][0-9]|[0-9]`. -/
def minuteAlts (s : Str) : List (Nat × Str) :=
  [tryTwo '0' '5' '0' '9' s, tryOne '0' '9' s].filterMap id

/-- `%S` = `6[0-1]|[0-5][0-9]|[0-9]` (leap seconds pass the regex but are
rejected by the `datetime` constructor below). -/
def secondAlts (s : Str) : List (Nat × Str) :=
  [tryTwo '6' '6' '0' '1' s, tryTwo '0' '5' '0' '9' s, tryOne '0' '9' s].filterMap id

/-- The backtracking match of the fixed format `%Y%m%d-%H%M%S` against a
whole string, alternatives tried in regex preference order, exactly as
CPython's `_strptime` regex engine does.  Note this is laxer than the
literal 15-character `YYYYMMDD-HHMMSS` shape: month, day, hour, minute
and second may each match a single digit when the following characters
let the whole pattern still succeed. -/
def strptimeYmdHms (s : Str) : Option (Nat × Nat × Nat × Nat × Nat × Nat) :=
  (tryYear s).bind fun ys =>
  (monthAlts ys.2).findSome? fun ms =>
  (dayAlts ms.2).findSome? fun ds =>
  match ds.2 with
  | '-' :: s4 =>
    (hourAlts s4).findSome? fun hs =>
    (minuteAlts hs.2).findSome? fun mins =>
    (secondAlts mins.2).findSome? fun secs =>
    if secs.2 = [] then some (ys.1, ms.1, ds.1, hs.1, mins.1, secs.1) else none
  | _ => none

def isLeapYear (y : Nat) : Bool := y % 4 = 0 && (y % 100 ≠ 0 || y % 400 = 0)

def daysInMonth (y m : Nat) : Nat :=
  if m = 2 then (if isLeapYear y then 29 else 28)
  else if m = 4 ∨ m = 6 ∨ m = 9 ∨ m = 11 then 30
  else 31

/-- An aware `datetime` as the program builds it: calendar fields plus a
flag recording that `tzinfo` was set to `datetime.timezone.utc`. -/
structure Timestamp where
  year : Nat
  month : Nat
  day : Nat
  hour : Nat
  minute : Nat
  second : Nat
  utc : Bool
deriving DecidableEq

/-- `parse_timestamp`: `strptime(timestamp, '%Y%m%d-%H%M%S')` followed by
`.replace(tzinfo=datetime.timezone.utc)`.  The `datetime` constructor
validates what the regex does not: `MINYEAR <= year`, the day fits the
month, and seconds are at most 59. -/
def parse_timestamp (s : Str) : Option Timestamp :=
  (strptimeYmdHms s).bind fun (y, mo, d, h, mi, sec) =>
  if 1 ≤ y ∧ d ≤ daysInMonth y mo ∧ sec ≤ 59 then
    some ⟨y, mo, d, h, mi, sec, true⟩
  else none

/-! ### Line parsing (`parse_line`, `parse_index_line`) -/

/-- Python `s.split(' ')`: split at every single space, keeping empty
pieces (`''.split(' ') == ['']`). -/
def splitSp : Str → List Str
  | [] => [[]]
  | ' ' :: rest => [] :: splitSp rest
  | c :: rest =>
    match splitSp rest with
    | h :: t => (c :: h) :: t
    | [] => [[c]]

/-- One parsed record line. -/
structure Record where
  project : Str
  page : Str
  timestamp : Timestamp
  count : Int
  bytes_trans : Int
deriving DecidableEq

/-- The key of a record: `(record[0], record[1])` = `(project, page)`. -/
def recKey (r : Record) : Key := (r.project, r.page)

/-- The body of `parse_line` after the `line[:-1]` slice: unpack exactly
five space-separated fields, percent-decode the page, parse the
timestamp and the two integers.  Any failure is Python's `ValueError`
(the spec's `MalformedRecord`). -/
def parse_fields (s : Str) : Option Record :=
  match splitSp s with
  | [proj, page, ts, cnt, bt] =>
    match parse_timestamp ts, pyInt cnt, pyInt bt with
    | some t, some c, some b => some ⟨proj, unquote page, t, c, b⟩
    | _, _, _ => none
  | _ => none

/-- `parse_line(line)`: note the unconditional `line[:-1]`, which removes
the final character whatever it is. -/
def parse_line (line : Str) : Option Record := parse_fields line.dropLast

/-- One line of the index artifact, parsed. -/
structure IndexRecord where
  file_name : Str
  project : Str
  page : Str
deriving DecidableEq

instance : Inhabited IndexRecord := ⟨⟨[], [], []⟩⟩

/-- The key of an index record: `x[1:]` = `(project, page)`. -/
def idxKey (e : IndexRecord) : Key := (e.project, e.page)

/-- `parse_index_line(line)`: `line[:-1]`, three space-separated fields,
percent-decoded page. -/
def parse_index_line (line : Str) : Option IndexRecord :=
  match splitSp line.dropLast with
  | [f, proj, page] => some ⟨f, proj, unquote page⟩
  | _ => none

/-! ### Grouping (`parse_and_group_records`) -/

/-- One `(Key, group)` pair of the grouped scan. -/
abbrev KGroup := Key × List Record

/-- `itertools.groupby(records, key=lambda r: (r[0], r[1]))`, fully
materialised: consecutive records with equal keys form one group. -/
def groupRecords : List Record → List KGroup
  | [] => []
  | r :: rs =>
    match groupRecords rs with
    | [] => [(recKey r, [r])]
    | (k, g) :: rest =>
      if recKey r = k then (k, r :: g) :: rest
      else (recKey r, [r]) :: (k, g) :: rest

/-- `parse_and_group_records(lines)`: parse every line, then group.  The
Python generator is lazy; the model is eager, which agrees with it
whenever every line parses (all runs verified below stay within
well-formed datasets, where the two coincide). -/
def parse_and_group_records (lines : List Str) : Option (List KGroup) :=
  (lines.mapM parse_line).map groupRecords

/-! ### Result tuples and the grouped scan loops -/

/-- One result tuple `(timestamp, count, bytes_trans)`. -/
abbrev ResT := Timestamp × Int × Int

/-- `(timestamp, count, bytes_trans) for _, _, timestamp, count,
bytes_trans in records_group`. -/
def resTup (r : Record) : ResT := (r.timestamp, r.count, r.bytes_trans)

/-- The scan loop of the stateless `search`: skip groups with key `< q`,
stop at the first key `> q`, return the mapped group on key `= q`. -/
def scanGroups (q : Key) : List KGroup → List ResT
  | [] => []
  | (k, g) :: rest =>
    if keyLtB k q then scanGroups q rest
    else if keyLtB q k then []
    else g.map resTup

/-- Result of `Finder.search`'s scan loop: the returned tuples, the part
of the grouped sequence not yet consumed, and the key of the last group
consumed (`None` if the loop body never ran). -/
structure ScanOut where
  res : List ResT
  rem : List KGroup
  lk : Option Key
deriving DecidableEq

/-- The scan loop of `Finder.search`: same skip/stop/match logic, but it
also records `last_key` and leaves the iterator parked after the last
group it consumed. -/
def finderScan (q : Key) : List KGroup → ScanOut
  | [] => ⟨[], [], none⟩
  | (k, g) :: rest =>
    if keyLtB k q then
      let o := finderScan q rest
      ⟨o.res, o.rem, some (o.lk.getD k)⟩
    else if keyLtB q k then ⟨[], rest, some k⟩
    else ⟨g.map resTup, rest, some k⟩

/-! ### The sorted index

`SortedCollection` itself (`sortedcollection.py`) is not part of the
sources under verification; the definitions marked "Modelled from the
spec" reconstruct it from the specification's words. -/

/-- Modelled from the spec: the missing `sortedcollection.py`'s
`bisect_right` loop — classic binary search, written with fuel (the
interval shrinks every iteration, so `length + 1` rounds always
suffice). -/
def bisectGo (keys : List Key) (q : Key) : Nat → Nat → Nat → Nat
  | 0, lo, _ => lo
  | fuel + 1, lo, hi =>
    if lo < hi then
      let mid := (lo + hi) / 2
      if keyLtB q (keys.getD mid ([], [])) then bisectGo keys q fuel lo mid
      else bisectGo keys q fuel (mid + 1) hi
    else lo

/-- Modelled from the spec: `bisect_right(keys, q)` over the materialised
key array. -/
def bisect_right (keys : List Key) (q : Key) : Nat :=
  bisectGo keys q (keys.length + 1) 0 keys.length

/-- Modelled from the spec: `SortedCollection.find_le(q)` — the entry
with the greatest key `≤ q`, `NotFound` (here `none`) if `q` precedes
every key. -/
def find_le (entries : List IndexRecord) (q : Key) : Option IndexRecord :=
  let i := bisect_right (entries.map idxKey) q
  if i = 0 then none else some (entries.getD (i - 1) default)

/-- Index entries ordered by `(project, page)` (the `key=lambda x: x[1:]`
passed by `read_index`). -/
def idxLe (a b : IndexRecord) : Prop := keyLeB (idxKey a) (idxKey b) = true

instance : DecidableRel idxLe := fun _ _ =>
  inferInstanceAs (Decidable (_ = true))

theorem keyLeB_total (x y : Key) : keyLeB x y = true ∨ keyLeB y x = true := by
  rcases keyLtB_tri x y with h | rfl | h
  · exact Or.inl (keyLeB_of_lt h)
  · exact Or.inl (keyLeB_refl x)
  · exact Or.inr (keyLeB_of_lt h)

instance : IsTotal IndexRecord idxLe :=
  ⟨fun a b => keyLeB_total (idxKey a) (idxKey b)⟩

instance : IsTrans IndexRecord idxLe :=
  ⟨fun _ _ _ => keyLeB_trans⟩

/-- Modelled from the spec: constructing the `SortedCollection` sorts the
entries by the key function (a stable sort, as Python's `sorted`). -/
def sortIndex (l : List IndexRecord) : List IndexRecord :=
  List.insertionSort idxLe l

/-- `read_index(index_path)`: parse every line and build the sorted
collection keyed by `(project, page)`. -/
def read_index (lines : List Str) : Option (List IndexRecord) :=
  (lines.mapM parse_index_line).map sortIndex

/-! ### The dataset and the two searchers -/

/-- The dataset directory: file names with their decompressed lines. -/
abbrev FS := List (Str × List Str)

/-- `gzip.open(...)` + line iteration for one partition file. -/
def fsLookup (fs : FS) (name : Str) : Option (List Str) :=
  (fs.find? fun p => decide (p.1 = name)).map Prod.snd

/-- Open one partition and parse all of its lines (eager image of the
lazy `parse_line` generator; they agree on datasets whose lines all
parse, which is an assumption of every verified run). -/
def partRecs (fs : FS) (name : Str) : Option (List Record) :=
  (fsLookup fs name).bind (List.mapM parse_line)

/-- Observable outcome of one search call.  `notFound` is the
propagated `ValueError` of `find_le`; `error` stands for the other
uncaught exceptions (missing/malformed partition file, or the
`TypeError` of comparing `last_key = None` with a tuple); `results` is
a normal return. -/
inductive Outcome where
  | notFound
  | error
  | results (rs : List ResT)
deriving DecidableEq

/-- The mutable state of a `Finder`, including the one-slot
`lru_cache(1)` sitting on `Finder.search`. -/
structure Finder where
  index : List IndexRecord
  curr_file_path : Option Str
  curr_iter : List KGroup
  last_key : Option Key
  cache : Option (Key × List ResT)
deriving DecidableEq

/-- `Finder.__init__` (with the index already read). -/
def Finder.init (idx : List IndexRecord) : Finder := ⟨idx, none, [], none, none⟩

/-- Stream events, to observe `_switch_file`'s close-then-open. -/
inductive FEvent where
  | closeF (p : Str)
  | openF (p : Str)
deriving DecidableEq

def optOr (a b : Option Key) : Option Key :=
  match a with
  | some x => some x
  | none => b

/-- `_switch_file` + `parse_and_group_records(self.curr_file)` + the scan
loop: close the previous stream (if any), open the resolved partition,
scan its grouped sequence from the start.  On error the model leaves the
state unchanged (the Python exception aborts the call; no verified run
reaches this case). -/
def Finder.openScan (f : Finder) (fs : FS) (q : Key) (name : Str) :
    Outcome × Finder × List FEvent :=
  match partRecs fs name with
  | none => (.error, f, [])
  | some recs =>
    let o := finderScan q (groupRecords recs)
    (.results o.res,
     { f with curr_file_path := some name, curr_iter := o.rem,
              last_key := optOr o.lk f.last_key, cache := some (q, o.res) },
     (match f.curr_file_path with
      | some old => [.closeF old]
      | none => []) ++ [.openF name])

/-- Continue consuming the already-open grouped sequence from its cursor. -/
def Finder.contScan (f : Finder) (q : Key) : Outcome × Finder × List FEvent :=
  let o := finderScan q f.curr_iter
  (.results o.res,
   { f with curr_iter := o.rem, last_key := optOr o.lk f.last_key,
            cache := some (q, o.res) },
   [])

/-- The body of `Finder.search` (everything under the `lru_cache`):
resolve the partition, decide between reopening and continuing
(`file_changed or self.last_key >= (project, page)` — the comparison
with `last_key = None` is only reached when `file_changed` is false,
and is a `TypeError` then), and run the scan loop. -/
def Finder.searchBody (f : Finder) (fs : FS) (q : Key) :
    Outcome × Finder × List FEvent :=
  match find_le f.index q with
  | none => (.notFound, f, [])
  | some e =>
    if f.curr_file_path = some e.file_name then
      match f.last_key with
      | none => (.error, f, [])
      | some lk =>
        if keyLeB q lk then f.openScan fs q e.file_name else f.contScan q
    else f.openScan fs q e.file_name

/-- `Finder.search(project, page)` with its `functools.lru_cache(1)`:
an exact repeat of the cached call returns the memoised result without
executing the body; otherwise the body runs and (on normal return)
replaces the cache entry.  Exceptions are not cached. -/
def Finder.search (f : Finder) (fs : FS) (q : Key) :
    Outcome × Finder × List FEvent :=
  match f.cache with
  | some (qc, r) => if qc = q then (.results r, f, []) else f.searchBody fs q
  | none => f.searchBody fs q

/-- Issue a sequence of queries to one `Finder` instance. -/
def Finder.run (fs : FS) : Finder → List Key → List Outcome × Finder
  | f, [] => ([], f)
  | f, q :: qs =>
    let s := f.search fs q
    let t := Finder.run fs s.2.1 qs
    (s.1 :: t.1, t.2)

/-- The stateless `search(source_dir, index, project, page)`:
resolve via `find_le`, open the partition, scan its grouped sequence,
close the stream (`with part_file:`). -/
def search (fs : FS) (index : List IndexRecord) (q : Key) : Outcome :=
  match find_le index q with
  | none => .notFound
  | some e =>
    match partRecs fs e.file_name with
    | none => .error
    | some recs => .results (scanGroups q (groupRecords recs))

/-! ### `build_index` -/

/-- `pre` is a prefix of `s`. -/
def startsW : Str → Str → Bool
  | [], _ => true
  | _ :: _, [] => false
  | a :: as, b :: bs => a = b && startsW as bs

/-- The glob pattern `part-*.gz` on a file name inside the directory. -/
def fnMatchPart (name : Str) : Bool :=
  8 ≤ name.length && startsW (str "part-") name &&
    startsW (str ".gz").reverse name.reverse

/-- `sorted(...)` order on the globbed paths: all paths share the
directory, so it is the name order. -/
def fileLe (a b : Str × List Str) : Prop := strLtB b.1 a.1 = false

instance : DecidableRel fileLe := fun _ _ =>
  inferInstanceAs (Decidable (_ = false))

theorem strLtB_not_lt_total (x y : Str) :
    strLtB y x = false ∨ strLtB x y = false := by
  cases h : strLtB y x
  · exact Or.inl rfl
  · exact Or.inr (strLtB_asymm h)

instance : IsTotal (Str × List Str) fileLe :=
  ⟨fun a b => strLtB_not_lt_total a.1 b.1⟩

theorem strLtB_not_lt_trans {x y z : Str} (hxy : strLtB y x = false)
    (hyz : strLtB z y = false) : strLtB z x = false := by
  cases h : strLtB z x
  · rfl
  · exfalso
    cases hy : strLtB x y
    · have hxy' : y = x := strLtB_conn hxy hy
      subst hxy'
      exact absurd h (by simp [hyz])
    · have hzy : strLtB z y = true := strLtB_trans h hy
      exact absurd hzy (by simp [hyz])

instance : IsTrans (Str × List Str) fileLe :=
  ⟨fun _ _ _ h1 h2 => strLtB_not_lt_trans h1 h2⟩

/-- `sorted(source_dir.glob('part-*.gz'))`. -/
def sortFiles (l : FS) : FS := List.insertionSort fileLe l

/-- `print(part_file_path.name, record.project, quote(record.page),
file=index_f)`. -/
def mkIndexLine (name : Str) (r : Record) : Str :=
  name ++ [' '] ++ r.project ++ [' '] ++ quote r.page ++ ['\n']

/-- `build_index(source_dir, output_path)`: glob `part-*.gz`, sort by
path, read and parse only the first line of each file, emit one index
line per file.  `none` models the aborting `ValueError` when some first
line is missing or malformed. -/
def build_index (ds : FS) : Option Str :=
  ((sortFiles (ds.filter fun p => fnMatchPart p.1)).mapM
    (fun p => (parse_line (p.2.headD [])).map (mkIndexLine p.1))).map List.flatten

/-! ### Properties of the grouping -/

/-- Short names for the key order as propositions. -/
abbrev kLt (a b : Key) : Prop := keyLtB a b = true
abbrev kLe (a b : Key) : Prop := keyLeB a b = true

theorem groupRecords_flatten :
    ∀ rs : List Record, ((groupRecords rs).map Prod.snd).flatten = rs := by
  intro rs
  induction rs with
  | nil => rfl
  | cons r rs ih =>
    cases h : groupRecords rs with
    | nil =>
      rw [h] at ih
      simp only [List.map_nil, List.flatten_nil] at ih
      subst ih
      simp [groupRecords]
    | cons p rest =>
      obtain ⟨k, g⟩ := p
      rw [h] at ih
      simp only [List.map_cons, List.flatten_cons] at ih
      by_cases hk : recKey r = k
      · rw [groupRecords, h]
        simp only [if_pos hk, List.map_cons, List.flatten_cons, List.cons_append]
        rw [ih]
      · rw [groupRecords, h]
        simp only [if_neg hk, List.map_cons, List.flatten_cons, List.singleton_append]
        rw [ih]

theorem groupRecords_mem :
    ∀ (rs : List Record) (p : KGroup), p ∈ groupRecords rs →
      p.2 ≠ [] ∧ ∀ r ∈ p.2, recKey r = p.1 := by
  intro rs
  induction rs with
  | nil => intro p hp; simp [groupRecords] at hp
  | cons r rs ih =>
    intro p hp
    cases h : groupRecords rs with
    | nil =>
      rw [groupRecords, h] at hp
      simp only [List.mem_singleton] at hp
      subst hp
      refine ⟨by simp, ?_⟩
      intro r' hr'
      simp only [List.mem_singleton] at hr'
      subst hr'; rfl
    | cons hd rest =>
      obtain ⟨k, g⟩ := hd
      rw [groupRecords, h] at hp
      by_cases hk : recKey r = k
      · simp only [if_pos hk] at hp
        rcases List.mem_cons.mp hp with rfl | hp'
        · have hmem : (k, g) ∈ groupRecords rs := by rw [h]; exact List.mem_cons_self _ _
          obtain ⟨-, hall⟩ := ih _ hmem
          refine ⟨by simp, ?_⟩
          intro r' hr'
          rcases List.mem_cons.mp hr' with rfl | hr''
          · exact hk
          · exact hall r' hr''
        · exact ih p (by rw [h]; exact List.mem_cons_of_mem _ hp')
      · simp only [if_neg hk] at hp
        rcases List.mem_cons.mp hp with rfl | hp'
        · refine ⟨by simp, ?_⟩
          intro r' hr'
          simp only [List.mem_singleton] at hr'
          subst hr'; rfl
        · exact ih p (by rw [h]; exact hp')

/-- Adjacent groups carry distinct keys (each group is a *maximal* run). -/
theorem groupRecords_chain_ne :
    ∀ rs : List Record,
      (groupRecords rs).Chain' (fun a b => a.1 ≠ b.1) := by
  intro rs
  induction rs with
  | nil => simp [groupRecords]
  | cons r rs ih =>
    cases h : groupRecords rs with
    | nil => simp [groupRecords, h]
    | cons hd rest =>
      obtain ⟨k, g⟩ := hd
      rw [h] at ih
      rw [groupRecords, h]
      by_cases hk : recKey r = k
      · simp only [if_pos hk]
        cases rest with
        | nil => simp
        | cons hd2 rest2 =>
          rw [List.chain'_cons] at ih ⊢
          exact ih
      · simp only [if_neg hk]
        exact List.chain'_cons.mpr ⟨hk, ih⟩

/-- Every group's key is the key of one of the input records. -/
theorem groupRecords_key_mem {rs : List Record} {p : KGroup}
    (hp : p ∈ groupRecords rs) : ∃ r ∈ rs, recKey r = p.1 := by
  obtain ⟨hne, hall⟩ := groupRecords_mem rs p hp
  cases hg : p.2 with
  | nil => exact absurd hg hne
  | cons r0 g' =>
    refine ⟨r0, ?_, hall r0 (by rw [hg]; exact List.mem_cons_self _ _)⟩
    rw [← groupRecords_flatten rs]
    exact List.mem_flatten.mpr ⟨p.2, List.mem_map_of_mem _ hp, by rw [hg]; exact List.mem_cons_self _ _⟩

/-- Keys of the groups of a key-sorted record list are strictly
increasing. -/
theorem groupRecords_sorted {rs : List Record}
    (hs : (rs.map recKey).Pairwise kLe) :
    ((groupRecords rs).map Prod.fst).Pairwise kLt := by
  induction rs with
  | nil => simp [groupRecords]
  | cons r rs ih =>
    simp only [List.map_cons, List.pairwise_cons] at hs
    obtain ⟨hall, hrs⟩ := hs
    have ih' := ih hrs
    cases h : groupRecords rs with
    | nil => simp [groupRecords, h]
    | cons hd rest =>
      obtain ⟨k, g⟩ := hd
      rw [h] at ih'
      simp only [List.map_cons] at ih'
      obtain ⟨ihead, itail⟩ := List.pairwise_cons.mp ih'
      rw [groupRecords, h]
      by_cases hk : recKey r = k
      · simp only [if_pos hk, List.map_cons]
        exact List.pairwise_cons.mpr ⟨ihead, itail⟩
      · simp only [if_neg hk, List.map_cons]
        have hkle : kLe (recKey r) k := by
          have hmem : (k, g) ∈ groupRecords rs := by rw [h]; exact List.mem_cons_self _ _
          obtain ⟨r', hr', hkey⟩ := groupRecords_key_mem hmem
          have hkey' : recKey r' = k := hkey
          rw [← hkey']
          exact hall _ (List.mem_map_of_mem _ hr')
        have hklt : kLt (recKey r) k := by
          rcases keyLeB_iff.mp hkle with hh | hh
          · exact hh
          · exact absurd hh hk
        refine List.pairwise_cons.mpr ⟨?_, List.pairwise_cons.mpr ⟨ihead, itail⟩⟩
        intro k' hk'
        rcases List.mem_cons.mp hk' with rfl | hk''
        · exact hklt
        · exact keyLtB_trans hklt (ihead k' hk'')

/-! ### Properties of the scan loops -/

theorem finderScan_res (q : Key) :
    ∀ gs : List KGroup, (finderScan q gs).res = scanGroups q gs := by
  intro gs
  induction gs with
  | nil => rfl
  | cons p rest ih =>
    obtain ⟨k, g⟩ := p
    by_cases h1 : keyLtB k q
    · simp [finderScan, scanGroups, h1, ih]
    · by_cases h2 : keyLtB q k
      · simp [finderScan, scanGroups, h1, h2]
      · simp [finderScan, scanGroups, h1, h2]

theorem scanGroups_skip (q : Key) :
    ∀ (pre rest : List KGroup),
      (∀ k ∈ pre.map Prod.fst, kLt k q) →
      scanGroups q (pre ++ rest) = scanGroups q rest := by
  intro pre
  induction pre with
  | nil => intro rest _; rfl
  | cons p pre' ih =>
    intro rest hall
    obtain ⟨k, g⟩ := p
    have hk : kLt k q := hall k (by simp)
    simp only [List.cons_append, scanGroups, if_pos hk]
    exact ih rest fun k' hk' => hall k' (by simp [hk'])

theorem finderScan_skip (q : Key) :
    ∀ (pre rest : List KGroup),
      (∀ k ∈ pre.map Prod.fst, kLt k q) →
      (finderScan q (pre ++ rest)).res = (finderScan q rest).res ∧
      (finderScan q (pre ++ rest)).rem = (finderScan q rest).rem := by
  intro pre
  induction pre with
  | nil => intro rest _; exact ⟨rfl, rfl⟩
  | cons p pre' ih =>
    intro rest hall
    obtain ⟨k, g⟩ := p
    have hk : kLt k q := hall k (by simp)
    have ih' := ih rest fun k' hk' => hall k' (by simp [hk'])
    simp only [List.cons_append, finderScan, if_pos hk]
    exact ih'

/-- If the scan loop ran at all, `last_key` was set. -/
theorem finderScan_lk_some (q : Key) (gs : List KGroup) (h : gs ≠ []) :
    ∃ l, (finderScan q gs).lk = some l := by
  cases gs with
  | nil => exact absurd rfl h
  | cons p rest =>
    obtain ⟨k, g⟩ := p
    by_cases h1 : keyLtB k q
    · exact ⟨((finderScan q rest).lk).getD k, by simp [finderScan, h1]⟩
    · by_cases h2 : keyLtB q k
      · exact ⟨k, by simp [finderScan, h1, h2]⟩
      · exact ⟨k, by simp [finderScan, h1, h2]⟩

/-- Full characterisation of one `Finder` scan over a strictly key-sorted
grouped sequence: the sequence splits into the consumed prefix and the
remaining iterator; `last_key` is the largest consumed key and every
remaining key is strictly beyond it. -/
theorem finderScan_decomp (q : Key) :
    ∀ gs : List KGroup, ((gs.map Prod.fst).Pairwise kLt) →
      ∃ consumed, gs = consumed ++ (finderScan q gs).rem ∧
        (((finderScan q gs).lk = none ∧ consumed = []) ∨
         ∃ l, (finderScan q gs).lk = some l ∧ l ∈ consumed.map Prod.fst ∧
           (∀ k ∈ consumed.map Prod.fst, kLe k l) ∧
           (∀ k ∈ (finderScan q gs).rem.map Prod.fst, kLt l k)) := by
  intro gs
  induction gs with
  | nil => exact fun _ => ⟨[], rfl, Or.inl ⟨rfl, rfl⟩⟩
  | cons p rest ih =>
    intro hs
    obtain ⟨k, g⟩ := p
    simp only [List.map_cons, List.pairwise_cons] at hs
    obtain ⟨hhead, hrest⟩ := hs
    by_cases h1 : keyLtB k q
    · obtain ⟨consumed', hsplit, hcase⟩ := ih hrest
      refine ⟨(k, g) :: consumed', ?_, ?_⟩
      · simp only [finderScan, if_pos h1, List.cons_append]
        exact congrArg _ hsplit
      · rcases hcase with ⟨hlk, hc⟩ | ⟨l, hlk, hlmem, hlall, hlrem⟩
        · subst hc
          refine Or.inr ⟨k, ?_, by simp, ?_, ?_⟩
          · simp [finderScan, if_pos h1, hlk]
          · intro k' hk'
            simp only [List.map_cons, List.map_nil, List.mem_singleton] at hk'
            subst hk'
            exact keyLeB_refl _
          · intro k' hk'
            simp only [finderScan, if_pos h1] at hk'
            refine hhead k' ?_
            have : (finderScan q rest).rem = rest := by
              simpa using hsplit.symm
            rw [this] at hk'
            exact hk'
        · refine Or.inr ⟨l, ?_, by simp [hlmem], ?_, ?_⟩
          · simp [finderScan, if_pos h1, hlk]
          · intro k' hk'
            simp only [List.map_cons, List.mem_cons] at hk'
            rcases hk' with rfl | hk''
            · refine keyLeB_of_lt ?_
              have hkmem := hlmem
              have : kLt k' l := by
                refine hhead l ?_
                have : l ∈ (consumed' ++ (finderScan q rest).rem).map Prod.fst := by
                  rw [List.map_append]
                  exact List.mem_append_left _ hlmem
                rw [← hsplit] at this
                exact this
              exact this
            · exact hlall k' hk''
          · intro k' hk'
            simp only [finderScan, if_pos h1] at hk'
            exact hlrem k' hk'
    · by_cases h2 : keyLtB q k
      · refine ⟨[(k, g)], ?_, Or.inr ⟨k, ?_, by simp, ?_, ?_⟩⟩
        · simp [finderScan, if_neg h1, if_pos h2]
        · simp [finderScan, if_neg h1, if_pos h2]
        · intro k' hk'
          simp only [List.map_cons, List.map_nil, List.mem_singleton] at hk'
          subst hk'
          exact keyLeB_refl _
        · intro k' hk'
          simp only [finderScan, if_neg h1, if_pos h2] at hk'
          exact hhead k' hk'
      · refine ⟨[(k, g)], ?_, Or.inr ⟨k, ?_, by simp, ?_, ?_⟩⟩
        · simp [finderScan, if_neg h1, if_neg h2]
        · simp [finderScan, if_neg h1, if_neg h2]
        · intro k' hk'
          simp only [List.map_cons, List.map_nil, List.mem_singleton] at hk'
          subst hk'
          exact keyLeB_refl _
        · intro k' hk'
          simp only [finderScan, if_neg h1, if_neg h2] at hk'
          exact hhead k' hk'

/-! ### Adjacent-pairs sortedness checks (decidable hypotheses) -/

/-- Adjacent non-decreasing check on a key list. -/
def chainLeB : List Key → Bool
  | [] => true
  | [_] => true
  | a :: b :: rest => keyLeB a b && chainLeB (b :: rest)

theorem chainLeB_pairwise :
    ∀ ks : List Key, chainLeB ks = true → ks.Pairwise kLe := by
  intro ks
  induction ks with
  | nil => intro _; exact List.Pairwise.nil
  | cons a rest ih =>
    intro h
    cases rest with
    | nil => simp
    | cons b rest2 =>
      simp only [chainLeB, Bool.and_eq_true] at h
      obtain ⟨hab, hchain⟩ := h
      have ihp := ih hchain
      refine List.pairwise_cons.mpr ⟨?_, ihp⟩
      intro a' ha'
      rcases List.mem_cons.mp ha' with rfl | ha''
      · exact hab
      · have hb := (List.pairwise_cons.mp ihp).1 a' ha''
        exact keyLeB_trans hab hb

theorem chainLeB_cons_of_pairwise :
    ∀ ks : List Key, ks.Pairwise kLe → chainLeB ks = true := by
  intro ks
  induction ks with
  | nil => intro _; rfl
  | cons a rest ih =>
    intro h
    obtain ⟨hall, hrest⟩ := List.pairwise_cons.mp h
    cases rest with
    | nil => rfl
    | cons b rest2 =>
      simp only [chainLeB, Bool.and_eq_true]
      exact ⟨hall b (by simp), ih hrest⟩

/-! ### Binary-search correctness -/

theorem keyLeB_antisymm {a b : Key} (hab : kLe a b) (hba : kLe b a) : a = b := by
  rcases keyLeB_iff.mp hab with h | rfl
  · rcases keyLeB_iff.mp hba with h' | rfl
    · exact absurd h' (by simp [keyLtB_asymm h])
    · rfl
  · rfl

theorem sortedKeys_getD_le {ks : List Key} (hs : ks.Pairwise kLe) {i j : Nat}
    (hij : i ≤ j) (hj : j < ks.length) :
    kLe (ks.getD i ([], [])) (ks.getD j ([], [])) := by
  rcases Nat.eq_or_lt_of_le hij with rfl | hlt
  · exact keyLeB_refl _
  · rw [List.getD_eq_getElem ks _ (by omega), List.getD_eq_getElem ks _ hj]
    exact List.pairwise_iff_getElem.mp hs i j (by omega) hj hlt

theorem bisectGo_spec {ks : List Key} {q : Key} (hs : ks.Pairwise kLe) :
    ∀ (fuel lo hi : Nat), hi ≤ ks.length → lo ≤ hi → hi - lo ≤ fuel →
      (∀ i, i < lo → kLe (ks.getD i ([], [])) q) →
      (∀ i, hi ≤ i → i < ks.length → kLt q (ks.getD i ([], []))) →
      lo ≤ bisectGo ks q fuel lo hi ∧ bisectGo ks q fuel lo hi ≤ hi ∧
      (∀ i, i < bisectGo ks q fuel lo hi → kLe (ks.getD i ([], [])) q) ∧
      (∀ i, bisectGo ks q fuel lo hi ≤ i → i < ks.length →
        kLt q (ks.getD i ([], []))) := by
  intro fuel
  induction fuel with
  | zero =>
    intro lo hi hn hlh hfuel hlo hhi
    have : lo = hi := by omega
    subst this
    exact ⟨Nat.le_refl _, Nat.le_refl _, hlo, fun i h1 h2 => hhi i h1 h2⟩
  | succ fuel ih =>
    intro lo hi hn hlh hfuel hlo hhi
    by_cases hlt : lo < hi
    · have hmlo : lo ≤ (lo + hi) / 2 := by omega
      have hmhi : (lo + hi) / 2 < hi := by omega
      by_cases ht : keyLtB q (ks.getD ((lo + hi) / 2) ([], [])) = true
      · have heq : bisectGo ks q (fuel + 1) lo hi = bisectGo ks q fuel lo ((lo + hi) / 2) := by
          rw [bisectGo, if_pos hlt]
          simp only [if_pos ht]
        rw [heq]
        have hside : ∀ i, (lo + hi) / 2 ≤ i → i < ks.length →
            kLt q (ks.getD i ([], [])) := by
          intro i h1 h2
          rcases Nat.eq_or_lt_of_le h1 with rfl | h1'
          · exact ht
          · exact keyLtB_of_lt_of_le ht (sortedKeys_getD_le hs (by omega) h2)
        have := ih lo ((lo + hi) / 2) (by omega) hmlo (by omega) hlo hside
        exact ⟨this.1, this.2.1.trans (by omega), this.2.2.1, this.2.2.2⟩
      · have hle : kLe (ks.getD ((lo + hi) / 2) ([], [])) q :=
          keyLeB_of_not_lt (by simpa using ht)
        have heq : bisectGo ks q (fuel + 1) lo hi =
            bisectGo ks q fuel ((lo + hi) / 2 + 1) hi := by
          rw [bisectGo, if_pos hlt]
          simp only [if_neg ht]
        rw [heq]
        have hside : ∀ i, i < (lo + hi) / 2 + 1 → kLe (ks.getD i ([], [])) q := by
          intro i h1
          have hi' : i ≤ (lo + hi) / 2 := by omega
          have hmn : (lo + hi) / 2 < ks.length := by omega
          exact keyLeB_trans (sortedKeys_getD_le hs hi' hmn) hle
        have := ih ((lo + hi) / 2 + 1) hi hn (by omega) (by omega) hside hhi
        exact ⟨by omega, this.2.1, this.2.2.1, this.2.2.2⟩
    · have heq : bisectGo ks q (fuel + 1) lo hi = lo := by
        rw [bisectGo]
        simp [hlt]
      rw [heq]
      have : lo = hi := by omega
      exact ⟨Nat.le_refl _, by omega, hlo, fun i h1 h2 => hhi i (by omega) h2⟩

theorem bisect_right_spec {ks : List Key} {q : Key} (hs : ks.Pairwise kLe) :
    bisect_right ks q ≤ ks.length ∧
    (∀ i, i < bisect_right ks q → kLe (ks.getD i ([], [])) q) ∧
    (∀ i, bisect_right ks q ≤ i → i < ks.length → kLt q (ks.getD i ([], []))) := by
  have := bisectGo_spec (q := q) hs (ks.length + 1) 0 ks.length (Nat.le_refl _)
    (Nat.zero_le _) (by omega) (fun i h1 => absurd h1 (by omega))
    (fun i h1 h2 => absurd h1 (by omega))
  exact ⟨this.2.1, this.2.2.1, this.2.2.2⟩

theorem find_le_none_iff {entries : List IndexRecord} {q : Key}
    (hs : (entries.map idxKey).Pairwise kLe) :
    find_le entries q = none ↔ ∀ e ∈ entries, kLt q (idxKey e) := by
  obtain ⟨hlen, hlo, hhi⟩ := bisect_right_spec (q := q) hs
  rw [List.length_map] at hlen
  constructor
  · intro hnone e he
    have hi0 : bisect_right (entries.map idxKey) q = 0 := by
      by_contra hne
      simp only [find_le, if_neg hne] at hnone
      exact Option.noConfusion hnone
    obtain ⟨j, hj, rfl⟩ := List.mem_iff_getElem.mp he
    have := hhi j (by omega) (by simpa using hj)
    rwa [List.getD_eq_getElem _ _ (by simpa using hj), List.getElem_map] at this
  · intro hall
    simp only [find_le]
    by_cases hi0 : bisect_right (entries.map idxKey) q = 0
    · simp [hi0]
    · exfalso
      have h0 : (0 : Nat) < bisect_right (entries.map idxKey) q := by omega
      have hn : 0 < entries.length := by omega
      have hle := hlo 0 h0
      have hgt := hall entries[0] (List.getElem_mem hn)
      rw [List.getD_eq_getElem _ _ (by simpa using hn), List.getElem_map] at hle
      have := keyLtB_of_le_of_lt hle hgt
      simp [keyLtB_irrefl] at this

theorem find_le_some_spec {entries : List IndexRecord} {q : Key} {e : IndexRecord}
    (hs : (entries.map idxKey).Pairwise kLe)
    (h : find_le entries q = some e) :
    e ∈ entries ∧ kLe (idxKey e) q ∧
      ∀ e' ∈ entries, kLe (idxKey e') q → kLe (idxKey e') (idxKey e) := by
  obtain ⟨hlen, hlo, hhi⟩ := bisect_right_spec (q := q) hs
  rw [List.length_map] at hlen
  simp only [find_le] at h
  by_cases hi0 : bisect_right (entries.map idxKey) q = 0
  · simp [hi0] at h
  · rw [if_neg hi0] at h
    set i := bisect_right (entries.map idxKey) q with hi
    have h1i : 1 ≤ i := by omega
    have hin : i - 1 < entries.length := by omega
    have he : e = entries[i - 1] := by
      have hh := List.getD_eq_getElem entries default hin
      rw [hh] at h
      exact (Option.some.injEq _ _).mp h.symm
    have hkey : kLe (idxKey e) q := by
      have := hlo (i - 1) (by omega)
      rw [List.getD_eq_getElem _ _ (by simpa using hin), List.getElem_map] at this
      rwa [he]
    refine ⟨he ▸ List.getElem_mem hin, hkey, ?_⟩
    intro e' he' hle'
    obtain ⟨j, hj, rfl⟩ := List.mem_iff_getElem.mp he'
    by_cases hji : j < i
    · have := sortedKeys_getD_le hs (i := j) (j := i - 1) (by omega) (by simpa using hin)
      rw [List.getD_eq_getElem _ _ (by simpa using hj),
        List.getD_eq_getElem _ _ (by simpa using hin),
        List.getElem_map, List.getElem_map] at this
      rwa [he]
    · exfalso
      have := hhi j (by omega) (by simpa using hj)
      rw [List.getD_eq_getElem _ _ (by simpa using hj), List.getElem_map] at this
      have hcon := keyLtB_of_le_of_lt hle' this
      simp [keyLtB_irrefl] at hcon

/-- `find_le` returns an element of the collection. -/
theorem find_le_mem {entries : List IndexRecord} {q : Key} {e : IndexRecord}
    (hs : (entries.map idxKey).Pairwise kLe)
    (h : find_le entries q = some e) : e ∈ entries :=
  (find_le_some_spec hs h).1

/-! ### The global sort invariant and the Finder state invariant -/

/-- Well-formedness of one indexed partition: it opens, every line
parses, it is non-empty, and its records are key-sorted. -/
def wfPartB (fs : FS) (name : Str) : Bool :=
  match partRecs fs name with
  | none => false
  | some recs => !recs.isEmpty && chainLeB (recs.map recKey)

/-- The part of the spec's global sort invariant the searchers rely on:
index keys non-decreasing, and every indexed partition well-formed. -/
def globalSortB (fs : FS) (idx : List IndexRecord) : Bool :=
  chainLeB (idx.map idxKey) && idx.all fun e => wfPartB fs e.file_name

theorem globalSort_idx {fs : FS} {idx : List IndexRecord}
    (h : globalSortB fs idx = true) : (idx.map idxKey).Pairwise kLe := by
  simp only [globalSortB, Bool.and_eq_true] at h
  exact chainLeB_pairwise _ h.1

theorem globalSort_part {fs : FS} {idx : List IndexRecord} {e : IndexRecord}
    (h : globalSortB fs idx = true) (he : e ∈ idx) :
    ∃ recs, partRecs fs e.file_name = some recs ∧ recs ≠ [] ∧
      (recs.map recKey).Pairwise kLe := by
  simp only [globalSortB, Bool.and_eq_true, List.all_eq_true] at h
  have hwf := h.2 e he
  unfold wfPartB at hwf
  cases hr : partRecs fs e.file_name with
  | none => rw [hr] at hwf; exact absurd hwf (by simp)
  | some recs =>
    rw [hr] at hwf
    simp only [Bool.and_eq_true, Bool.not_eq_true'] at hwf
    refine ⟨recs, rfl, ?_, chainLeB_pairwise _ hwf.2⟩
    intro hcon
    subst hcon
    simp at hwf

theorem groupRecords_ne_nil {rs : List Record} (h : rs ≠ []) :
    groupRecords rs ≠ [] := by
  intro hcon
  have hf := groupRecords_flatten rs
  rw [hcon] at hf
  simp only [List.map_nil, List.flatten_nil] at hf
  exact h hf.symm

/-- The state invariant a `Finder` maintains between calls, relative to
the smallest key `qp` any future query may carry: the cache (if filled)
memoises a stateless result for a key `≤ qp`, and the open stream (if
any) is a well-formed partition whose grouped sequence splits into a
consumed prefix (all keys `≤ last_key`) and the live iterator (all keys
`> last_key`). -/
def FinderInv (fs : FS) (idx : List IndexRecord) (f : Finder) (qp : Key) : Prop :=
  f.index = idx ∧
  (f.cache = none ∨ ∃ qc r, f.cache = some (qc, r) ∧ kLe qc qp ∧
    search fs idx qc = .results r) ∧
  ((f.curr_file_path = none ∧ f.curr_iter = [] ∧ f.last_key = none) ∨
   (∃ name recs pre lk,
      f.curr_file_path = some name ∧
      partRecs fs name = some recs ∧ recs ≠ [] ∧
      (recs.map recKey).Pairwise kLe ∧
      groupRecords recs = pre ++ f.curr_iter ∧
      f.last_key = some lk ∧
      (∀ k ∈ pre.map Prod.fst, kLe k lk) ∧
      (∀ k ∈ f.curr_iter.map Prod.fst, kLt lk k)))

/-- What `openScan` computes and the scan-state facts it re-establishes. -/
theorem openScan_spec {f : Finder} {fs : FS} {q : Key} {name : Str}
    {recs : List Record}
    (hrecs : partRecs fs name = some recs) (hne : recs ≠ [])
    (hsorted : (recs.map recKey).Pairwise kLe) :
    (f.openScan fs q name).1 = .results (scanGroups q (groupRecords recs)) ∧
    (f.openScan fs q name).2.1.index = f.index ∧
    (f.openScan fs q name).2.1.cache = some (q, scanGroups q (groupRecords recs)) ∧
    ∃ pre lk, (f.openScan fs q name).2.1.curr_file_path = some name ∧
      groupRecords recs = pre ++ (f.openScan fs q name).2.1.curr_iter ∧
      (f.openScan fs q name).2.1.last_key = some lk ∧
      (∀ k ∈ pre.map Prod.fst, kLe k lk) ∧
      (∀ k ∈ (f.openScan fs q name).2.1.curr_iter.map Prod.fst, kLt lk k) := by
  have hgne : groupRecords recs ≠ [] := groupRecords_ne_nil hne
  have hstrict := groupRecords_sorted hsorted
  obtain ⟨consumed, hsplit, hcase⟩ := finderScan_decomp q (groupRecords recs) hstrict
  obtain ⟨l, hlk⟩ := finderScan_lk_some q (groupRecords recs) hgne
  have hop : f.openScan fs q name =
      (.results (finderScan q (groupRecords recs)).res,
       { f with curr_file_path := some name,
                curr_iter := (finderScan q (groupRecords recs)).rem,
                last_key := optOr (finderScan q (groupRecords recs)).lk f.last_key,
                cache := some (q, (finderScan q (groupRecords recs)).res) },
       (match f.curr_file_path with
        | some old => [FEvent.closeF old]
        | none => []) ++ [FEvent.openF name]) := by
    rw [Finder.openScan, hrecs]
  rw [hop]
  obtain ⟨hmeml, hall, hrem⟩ : l ∈ consumed.map Prod.fst ∧
      (∀ k ∈ consumed.map Prod.fst, kLe k l) ∧
      (∀ k ∈ (finderScan q (groupRecords recs)).rem.map Prod.fst, kLt l k) := by
    rcases hcase with ⟨hnone, -⟩ | ⟨l', hl', hmem', hall', hrem'⟩
    · rw [hlk] at hnone; exact absurd hnone (by simp)
    · rw [hlk] at hl'
      obtain rfl : l = l' := by injection hl'
      exact ⟨hmem', hall', hrem'⟩
  refine ⟨by rw [finderScan_res], rfl, by rw [finderScan_res], consumed, l,
    rfl, hsplit, ?_, hall, hrem⟩
  simp [optOr, hlk]

/-- One `Finder.searchBody` call delivers the stateless result and
re-establishes the invariant, for any query `q ≥ qp`. -/
theorem searchBody_spec {fs : FS} {idx : List IndexRecord}
    (hg : globalSortB fs idx = true) {f : Finder} {qp q : Key}
    (hinv : FinderInv fs idx f qp) (hq : kLe qp q) :
    (f.searchBody fs q).1 = search fs idx q ∧
    FinderInv fs idx (f.searchBody fs q).2.1 q := by
  obtain ⟨hidx, hcache, hscan⟩ := hinv
  cases hfle : find_le idx q with
  | none =>
    have hbody : f.searchBody fs q = (.notFound, f, []) := by
      rw [Finder.searchBody, hidx, hfle]
    rw [hbody]
    refine ⟨by simp only [search, hfle], hidx, ?_, hscan⟩
    rcases hcache with h | ⟨qc, r, hc, hle, hs⟩
    · exact Or.inl h
    · exact Or.inr ⟨qc, r, hc, keyLeB_trans hle hq, hs⟩
  | some e =>
    have hmem : e ∈ idx := find_le_mem (globalSort_idx hg) hfle
    obtain ⟨recs, hrecs, hne, hsorted⟩ := globalSort_part hg hmem
    have hsearch : search fs idx q = .results (scanGroups q (groupRecords recs)) := by
      simp only [search, hfle, hrecs]
    by_cases hpath : f.curr_file_path = some e.file_name
    · -- same partition open: check last_key
      rcases hscan with ⟨hnone, -, -⟩ | ⟨name, recs0, pre, lk, hname, hrecs0, hne0, hsort0, hsplit0, hlk0, hpre0, hiter0⟩
      · rw [hnone] at hpath; exact absurd hpath (by simp)
      · have hnm : name = e.file_name := by
          rw [hname] at hpath; injection hpath
        subst hnm
        have hr0 : recs0 = recs := by
          rw [hrecs0] at hrecs; injection hrecs
        rw [hr0] at hsplit0
        have hbody : f.searchBody fs q =
            (if keyLeB q lk then f.openScan fs q e.file_name else f.contScan q) := by
          simp only [Finder.searchBody, hidx, hfle, if_pos hpath, hlk0]
        by_cases hql : keyLeB q lk = true
        · rw [hbody, if_pos hql]
          obtain ⟨ho, hoidx, hocache, pre', l', hopath, hosplit, holk, hoall, horem⟩ :=
            openScan_spec (f := f) (q := q) hrecs hne hsorted
          refine ⟨ho.trans hsearch.symm, hoidx.trans hidx, ?_, Or.inr
            ⟨e.file_name, recs, pre', l', hopath, hrecs, hne, hsorted,
              hosplit, holk, hoall, horem⟩⟩
          exact Or.inr ⟨q, _, hocache, keyLeB_refl q, by rw [hsearch]⟩
        · -- continue the open iterator
          have hlkq : kLt lk q := keyLtB_of_not_le (by
            cases hh : keyLeB q lk
            · rfl
            · exact absurd hh hql)
          have hprelt : ∀ k ∈ pre.map Prod.fst, kLt k q :=
            fun k hk => keyLtB_of_le_of_lt (hpre0 k hk) hlkq
          have hres : scanGroups q f.curr_iter = scanGroups q (groupRecords recs) := by
            rw [hsplit0, scanGroups_skip q pre f.curr_iter hprelt]
          have hcont : f.contScan q =
              (.results (finderScan q f.curr_iter).res,
               { f with curr_iter := (finderScan q f.curr_iter).rem,
                        last_key := optOr (finderScan q f.curr_iter).lk f.last_key,
                        cache := some (q, (finderScan q f.curr_iter).res) },
               []) := by
            rw [Finder.contScan]
          rw [hbody, if_neg hql, hcont]
          have hstrict := groupRecords_sorted hsorted
          have hiterstrict : (f.curr_iter.map Prod.fst).Pairwise kLt := by
            rw [hsplit0, List.map_append] at hstrict
            exact (List.pairwise_append.mp hstrict).2.1
          obtain ⟨consumed, hsplitc, hcasec⟩ := finderScan_decomp q f.curr_iter hiterstrict
          refine ⟨?_, hidx, ?_, ?_⟩
          · rw [finderScan_res, hres, hsearch]
          · refine Or.inr ⟨q, _, rfl, keyLeB_refl q, ?_⟩
            rw [finderScan_res, hres, hsearch]
          · -- scan-state part
            rcases hcasec with ⟨hlknone, hcons⟩ | ⟨l', hl', hmem', hall', hrem'⟩
            · -- nothing consumed: state keeps last_key, iterator splits unchanged
              have hrem_eq : (finderScan q f.curr_iter).rem = f.curr_iter := by
                conv_rhs => rw [hsplitc]
                rw [hcons, List.nil_append]
              refine Or.inr ⟨e.file_name, recs, pre, lk, hpath, hrecs, hne, hsorted, ?_, ?_, hpre0, ?_⟩
              · rw [hrem_eq]
                exact hsplit0
              · rw [hlknone]
                simpa [optOr] using hlk0
              · rw [hrem_eq]
                exact hiter0
            · -- consumed ≠ ∅: last_key advances to l'
              refine Or.inr ⟨e.file_name, recs, pre ++ consumed, l', hpath, hrecs, hne, hsorted, ?_, ?_, ?_, ?_⟩
              · rw [hsplit0]
                conv_lhs => rw [hsplitc]
                rw [List.append_assoc]
              · rw [hl']
                rfl
              · intro k hk
                rw [List.map_append, List.mem_append] at hk
                rcases hk with hk | hk
                · have hklk : kLe k lk := hpre0 k hk
                  have hlkl : kLt lk l' := by
                    refine hiter0 l' ?_
                    rw [hsplitc, List.map_append, List.mem_append]
                    exact Or.inl hmem'
                  exact keyLeB_of_lt (keyLtB_of_le_of_lt hklk hlkl)
                · exact hall' k hk
              · exact hrem'
    · -- different partition: reopen
      have hbody : f.searchBody fs q = f.openScan fs q e.file_name := by
        simp only [Finder.searchBody, hidx, hfle, if_neg hpath]
      rw [hbody]
      obtain ⟨ho, hoidx, hocache, pre', l', hopath, hosplit, holk, hoall, horem⟩ :=
        openScan_spec (f := f) (q := q) hrecs hne hsorted
      refine ⟨ho.trans hsearch.symm, hoidx.trans hidx, ?_, Or.inr
        ⟨e.file_name, recs, pre', l', hopath, hrecs, hne, hsorted,
          hosplit, holk, hoall, horem⟩⟩
      exact Or.inr ⟨q, _, hocache, keyLeB_refl q, by rw [hsearch]⟩

/-- One `Finder.search` call (cache included). -/
theorem finder_step {fs : FS} {idx : List IndexRecord}
    (hg : globalSortB fs idx = true) {f : Finder} {qp q : Key}
    (hinv : FinderInv fs idx f qp) (hq : kLe qp q) :
    (f.search fs q).1 = search fs idx q ∧
    FinderInv fs idx (f.search fs q).2.1 q := by
  obtain ⟨hidx, hcache, hscan⟩ := hinv
  cases hc : f.cache with
  | none =>
    have : f.search fs q = f.searchBody fs q := by
      rw [Finder.search, hc]
    rw [this]
    exact searchBody_spec hg ⟨hidx, hcache, hscan⟩ hq
  | some p =>
    obtain ⟨qc, r⟩ := p
    by_cases hqc : qc = q
    · have hstep : f.search fs q = (.results r, f, []) := by
        simp only [Finder.search, hc, if_pos hqc]
      rw [hstep]
      rcases hcache with h | ⟨qc', r', hc', hle', hs'⟩
      · rw [hc] at h; exact absurd h (by simp)
      · rw [hc] at hc'
        have h1 := (Option.some.injEq _ _).mp hc'
        have hq1 : qc = qc' := congrArg Prod.fst h1
        have hr1 : r = r' := congrArg Prod.snd h1
        refine ⟨?_, hidx, ?_, hscan⟩
        · rw [← hqc, hq1, hr1]
          exact hs'.symm
        · refine Or.inr ⟨qc, r, hc, ?_, ?_⟩
          · rw [hqc]
            exact keyLeB_refl q
          · rw [hq1, hr1]
            exact hs'
    · have hstep : f.search fs q = f.searchBody fs q := by
        simp only [Finder.search, hc, if_neg hqc]
      rw [hstep]
      exact searchBody_spec hg ⟨hidx, hcache, hscan⟩ hq

/-- Running a whole non-decreasing query sequence. -/
theorem finder_run {fs : FS} {idx : List IndexRecord}
    (hg : globalSortB fs idx = true) :
    ∀ (qs : List Key) (f : Finder) (qp : Key),
      FinderInv fs idx f qp → List.Chain kLe qp qs →
      (Finder.run fs f qs).1 = qs.map (search fs idx) := by
  intro qs
  induction qs with
  | nil => intro f qp _ _; rfl
  | cons q qs ih =>
    intro f qp hinv hchain
    rcases hchain with _ | ⟨hle, hchain'⟩
    obtain ⟨hout, hinv'⟩ := finder_step hg hinv hle
    simp only [Finder.run]
    rw [ih (f.search fs q).2.1 q hinv' hchain', hout, List.map_cons]

/-- Stateful/stateless equivalence from a fresh `Finder`. -/
theorem finder_equiv {fs : FS} {idx : List IndexRecord}
    (hg : globalSortB fs idx = true)
    (qs : List Key) (hqs : qs.Chain' kLe) :
    (Finder.run fs (Finder.init idx) qs).1 = qs.map (search fs idx) := by
  cases qs with
  | nil => rfl
  | cons q qs' =>
    have hinv : FinderInv fs idx (Finder.init idx) q :=
      ⟨rfl, Or.inl rfl, Or.inl ⟨rfl, rfl, rfl⟩⟩
    exact finder_run hg (q :: qs') (Finder.init idx) q hinv
      (List.Chain.cons (keyLeB_refl q) hqs)

/-! ### Scan lemmas for the exact-match and overshoot cases -/

theorem scanGroups_match {q : Key} {g : List Record} {pre post gs : List KGroup}
    (hs : (gs.map Prod.fst).Pairwise kLt)
    (hsplit : gs = pre ++ (q, g) :: post) :
    scanGroups q gs = g.map resTup ∧ (finderScan q gs).rem = post := by
  subst hsplit
  have hpre : ∀ k ∈ pre.map Prod.fst, kLt k q := by
    rw [List.map_append] at hs
    have hcross := (List.pairwise_append.mp hs).2.2
    intro k hk
    exact hcross k hk q (by simp)
  constructor
  · rw [scanGroups_skip q pre _ hpre]
    simp [scanGroups, keyLtB_irrefl]
  · rw [(finderScan_skip q pre _ hpre).2]
    simp [finderScan, keyLtB_irrefl]

theorem scanGroups_overshoot {q k : Key} {g : List Record} {pre post gs : List KGroup}
    (hsplit : gs = pre ++ (k, g) :: post)
    (hpre : ∀ kk ∈ pre.map Prod.fst, kLt kk q)
    (hqk : kLt q k) :
    scanGroups q gs = [] ∧ (finderScan q gs).rem = post := by
  subst hsplit
  have hnk : keyLtB k q = false := keyLtB_asymm hqk
  constructor
  · rw [scanGroups_skip q pre _ hpre]
    simp [scanGroups, hnk, hqk]
  · rw [(finderScan_skip q pre _ hpre).2]
    simp [finderScan, hnk, hqk]

/-- A query key matching no group at all yields the empty list. -/
theorem scanGroups_none {q : Key} :
    ∀ gs : List KGroup, q ∉ gs.map Prod.fst → scanGroups q gs = [] := by
  intro gs
  induction gs with
  | nil => intro _; rfl
  | cons p rest ih =>
    intro hq
    obtain ⟨k, g⟩ := p
    simp only [List.map_cons, List.mem_cons] at hq
    push_neg at hq
    by_cases h1 : keyLtB k q
    · simp only [scanGroups, if_pos h1]
      exact ih hq.2
    · by_cases h2 : keyLtB q k
      · simp [scanGroups, h1, h2]
      · exfalso
        rcases keyLtB_tri k q with hh | hh | hh
        · exact absurd hh (by simp [h1])
        · exact hq.1 hh.symm
        · exact absurd hh (by simp [h2])

/-! ### Uniqueness for a strictly sorted index -/

theorem strict_key_inj {entries : List IndexRecord}
    (hs : (entries.map idxKey).Pairwise kLt)
    {e e' : IndexRecord} (he : e ∈ entries) (he' : e' ∈ entries)
    (hk : idxKey e = idxKey e') : e = e' := by
  obtain ⟨i, hi, rfl⟩ := List.mem_iff_getElem.mp he
  obtain ⟨j, hj, rfl⟩ := List.mem_iff_getElem.mp he'
  rcases lt_trichotomy i j with hij | rfl | hij
  · exfalso
    have hlt := List.pairwise_iff_getElem.mp hs i j (by simpa using hi)
      (by simpa using hj) hij
    rw [List.getElem_map, List.getElem_map, hk] at hlt
    have hlt' : keyLtB (idxKey entries[j]) (idxKey entries[j]) = true := hlt
    rw [keyLtB_irrefl] at hlt'
    exact Bool.noConfusion hlt'
  · rfl
  · exfalso
    have hlt := List.pairwise_iff_getElem.mp hs j i (by simpa using hj)
      (by simpa using hi) hij
    rw [List.getElem_map, List.getElem_map, hk] at hlt
    have hlt' : keyLtB (idxKey entries[j]) (idxKey entries[j]) = true := hlt
    rw [keyLtB_irrefl] at hlt'
    exact Bool.noConfusion hlt' 

/-! ### UTF-8 encode/decode round trip -/

theorem utf8EncodeChar_len_pos (c : Char) : 1 ≤ (utf8EncodeChar c).length := by
  simp only [utf8EncodeChar]
  split_ifs <;> simp

/-- Extra fuel is irrelevant once it covers the byte count. -/
theorem utf8dr_fuel :
    ∀ (f1 : Nat) (bs : List Nat) (f2 : Nat), bs.length ≤ f1 → bs.length ≤ f2 →
      utf8dr f1 bs = utf8dr f2 bs := by
  intro f1
  induction f1 with
  | zero =>
    intro bs f2 h1 h2
    have hbs : bs = [] := List.length_eq_zero.mp (Nat.le_zero.mp h1)
    subst hbs
    cases f2 <;> rfl
  | succ f ih =>
    intro bs f2 h1 h2
    cases bs with
    | nil => cases f2 <;> rfl
    | cons b rest =>
      cases f2 with
      | zero => simp at h2
      | succ f2' =>
        rcases rest with _ | ⟨b1, _ | ⟨b2, _ | ⟨b3, rest4⟩⟩⟩ <;>
          · simp only [List.length_cons, List.length_nil] at h1 h2
            simp only [utf8dr]
            split_ifs <;>
              first
                | rfl
                | exact congrArg _ (ih _ _
                    (by first
                      | omega
                      | (simp only [List.length_cons, List.length_nil]; omega))
                    (by first
                      | omega
                      | (simp only [List.length_cons, List.length_nil]; omega)))

/-- Decoding consumes one encoded character exactly. -/
theorem utf8dr_encode (c : Char) (fuel : Nat) (bs : List Nat) :
    utf8dr (fuel + 1) (utf8EncodeChar c ++ bs) = c :: utf8dr fuel bs := by
  have hval : c.toNat < 0xd800 ∨ 0xe000 ≤ c.toNat ∧ c.toNat < 0x110000 := c.valid
  by_cases h1 : c.toNat < 0x80
  · simp only [utf8EncodeChar, if_pos h1, List.cons_append, List.nil_append]
    simp only [utf8dr, if_pos h1]
    rw [Char.ofNat_toNat]
  · by_cases h2 : c.toNat < 0x800
    · simp only [utf8EncodeChar, if_neg h1, if_pos h2, List.cons_append, List.nil_append]
      have hb_not : ¬ (0xC0 + c.toNat / 64 < 0x80) := by omega
      have hbr : 0xC2 ≤ 0xC0 + c.toNat / 64 ∧ 0xC0 + c.toNat / 64 ≤ 0xDF := by omega
      have hcont : 0x80 ≤ 0x80 + c.toNat % 64 ∧ 0x80 + c.toNat % 64 < 0xC0 := by omega
      simp only [utf8dr, if_neg hb_not, if_pos hbr, if_pos hcont]
      have hv : (0xC0 + c.toNat / 64 - 0xC0) * 64 + (0x80 + c.toNat % 64 - 0x80) =
          c.toNat := by omega
      rw [hv, Char.ofNat_toNat]
    · by_cases h3 : c.toNat < 0x10000
      · simp only [utf8EncodeChar, if_neg h1, if_neg h2, if_pos h3,
          List.cons_append, List.nil_append]
        have hb_not : ¬ (0xE0 + c.toNat / 4096 < 0x80) := by omega
        have hb_not2 : ¬ (0xC2 ≤ 0xE0 + c.toNat / 4096 ∧ 0xE0 + c.toNat / 4096 ≤ 0xDF) := by
          omega
        have hbr : 0xE0 ≤ 0xE0 + c.toNat / 4096 ∧ 0xE0 + c.toNat / 4096 ≤ 0xEF := by
          omega
        have hcond : (0x80 ≤ 0x80 + c.toNat / 64 % 64 ∧ 0x80 + c.toNat / 64 % 64 < 0xC0) ∧
            (0x80 ≤ 0x80 + c.toNat % 64 ∧ 0x80 + c.toNat % 64 < 0xC0) ∧
            (0xE0 + c.toNat / 4096 = 0xE0 → 0xA0 ≤ 0x80 + c.toNat / 64 % 64) ∧
            (0xE0 + c.toNat / 4096 = 0xED → 0x80 + c.toNat / 64 % 64 < 0xA0) := by
          omega
        simp only [utf8dr, if_neg hb_not, if_neg hb_not2, if_pos hbr, if_pos hcond]
        have hv : (0xE0 + c.toNat / 4096 - 0xE0) * 4096 +
            (0x80 + c.toNat / 64 % 64 - 0x80) * 64 + (0x80 + c.toNat % 64 - 0x80) =
            c.toNat := by omega
        rw [hv, Char.ofNat_toNat]
      · simp only [utf8EncodeChar, if_neg h1, if_neg h2, if_neg h3,
          List.cons_append, List.nil_append]
        have hlt : c.toNat < 0x110000 := by omega
        have hb_not : ¬ (0xF0 + c.toNat / 0x40000 < 0x80) := by omega
        have hb_not2 : ¬ (0xC2 ≤ 0xF0 + c.toNat / 0x40000 ∧
            0xF0 + c.toNat / 0x40000 ≤ 0xDF) := by omega
        have hb_not3 : ¬ (0xE0 ≤ 0xF0 + c.toNat / 0x40000 ∧
            0xF0 + c.toNat / 0x40000 ≤ 0xEF) := by omega
        have hbr : 0xF0 ≤ 0xF0 + c.toNat / 0x40000 ∧
            0xF0 + c.toNat / 0x40000 ≤ 0xF4 := by omega
        have hcond : (0x80 ≤ 0x80 + c.toNat / 4096 % 64 ∧
              0x80 + c.toNat / 4096 % 64 < 0xC0) ∧
            (0x80 ≤ 0x80 + c.toNat / 64 % 64 ∧ 0x80 + c.toNat / 64 % 64 < 0xC0) ∧
            (0x80 ≤ 0x80 + c.toNat % 64 ∧ 0x80 + c.toNat % 64 < 0xC0) ∧
            (0xF0 + c.toNat / 0x40000 = 0xF0 → 0x90 ≤ 0x80 + c.toNat / 4096 % 64) ∧
            (0xF0 + c.toNat / 0x40000 = 0xF4 → 0x80 + c.toNat / 4096 % 64 < 0x90) := by
          omega
        simp only [utf8dr, if_neg hb_not, if_neg hb_not2, if_neg hb_not3,
          if_pos hbr, if_pos hcond]
        have hv : (0xF0 + c.toNat / 0x40000 - 0xF0) * 0x40000 +
            (0x80 + c.toNat / 4096 % 64 - 0x80) * 4096 +
            (0x80 + c.toNat / 64 % 64 - 0x80) * 64 + (0x80 + c.toNat % 64 - 0x80) =
            c.toNat := by omega
        rw [hv, Char.ofNat_toNat]

/-- Decoding a run of encoded characters. -/
theorem utf8DecodeReplace_encode (c : Char) (bs : List Nat) :
    utf8DecodeReplace (utf8EncodeChar c ++ bs) = c :: utf8DecodeReplace bs := by
  unfold utf8DecodeReplace
  rw [List.length_append]
  have hpos := utf8EncodeChar_len_pos c
  have h1 : (utf8EncodeChar c).length + bs.length =
      ((utf8EncodeChar c).length - 1 + bs.length) + 1 := by omega
  rw [h1, utf8dr_encode]
  exact congrArg _ (utf8dr_fuel _ _ _ (by omega) (Nat.le_refl _))

theorem utf8DecodeReplace_flat :
    ∀ cs : List Char, utf8DecodeReplace (cs.flatMap utf8EncodeChar) = cs := by
  intro cs
  induction cs with
  | nil => rfl
  | cons c cs ih =>
    rw [List.flatMap_cons, utf8DecodeReplace_encode, ih]

/-! ### `unquote (quote s) = s` -/

theorem hexVal_hexDigU {n : Nat} (h : n < 16) : hexVal (hexDigU n) = some n := by
  interval_cases n <;> decide

theorem utf8EncodeChar_bytes_lt (c : Char) : ∀ b ∈ utf8EncodeChar c, b < 256 := by
  have hval : c.toNat < 0xd800 ∨ 0xe000 ≤ c.toNat ∧ c.toNat < 0x110000 := c.valid
  simp only [utf8EncodeChar]
  split_ifs with h1 h2 h3 <;> intro b hb <;> simp only [List.mem_cons,
    List.mem_singleton, List.not_mem_nil, or_false] at hb
  · omega
  · rcases hb with rfl | rfl <;> omega
  · rcases hb with rfl | rfl | rfl <;> omega
  · rcases hb with rfl | rfl | rfl | rfl <;> omega

theorem toks_perc {b : Nat} (hb : b < 256) (rest : Str) :
    toks (percentEnc b ++ rest) = .byte b :: toks rest := by
  have h1 : hexVal (hexDigU (b / 16)) = some (b / 16) := hexVal_hexDigU (by omega)
  have h2 : hexVal (hexDigU (b % 16)) = some (b % 16) := hexVal_hexDigU (by omega)
  simp only [percentEnc, List.cons_append, List.nil_append, toks, h1, h2]
  have hv : 16 * (b / 16) + b % 16 = b := by omega
  rw [hv]
  rfl

theorem toks_lit {c : Char} (hc : c ≠ '%') (rest : Str) :
    toks (c :: rest) = .ch c :: toks rest := by
  rcases rest with _ | ⟨a, _ | ⟨b, rest2⟩⟩ <;>
    · rw [toks.eq_def]
      split <;> simp_all [toks]

/-- The token image of `quote`. -/
def quoteToks (s : Str) : List Tok :=
  s.flatMap fun c =>
    if quoteSafe c then [Tok.ch c] else (utf8EncodeChar c).map Tok.byte

theorem toks_percRun :
    ∀ (bl : List Nat) (t : Str), (∀ b ∈ bl, b < 256) →
      toks (bl.flatMap percentEnc ++ t) = bl.map Tok.byte ++ toks t := by
  intro bl
  induction bl with
  | nil => intro t _; simp
  | cons b bl ih =>
    intro t hall
    rw [List.flatMap_cons, List.append_assoc, toks_perc (hall b (by simp)),
      ih t fun b' hb' => hall b' (by simp [hb'])]
    rfl

theorem quoteSafe_ne_percent {c : Char} (h : quoteSafe c = true) : c ≠ '%' := by
  intro hc
  subst hc
  simp [quoteSafe] at h

theorem toks_quote : ∀ s : Str, toks (quote s) = quoteToks s := by
  intro s
  induction s with
  | nil => rfl
  | cons c s ih =>
    by_cases hsafe : quoteSafe c
    · rw [quote, List.flatMap_cons, if_pos hsafe, List.singleton_append,
        toks_lit (quoteSafe_ne_percent hsafe)]
      rw [quoteToks, List.flatMap_cons, if_pos hsafe, List.singleton_append]
      exact congrArg _ ih
    · rw [quote, List.flatMap_cons, if_neg hsafe,
        toks_percRun _ _ (utf8EncodeChar_bytes_lt c)]
      rw [quoteToks, List.flatMap_cons, if_neg hsafe]
      exact congrArg _ ih

theorem decodeToks_byteRun :
    ∀ (bl : List Nat) (t : List Tok) (acc : List Nat),
      decodeToks (bl.map Tok.byte ++ t) acc = decodeToks t (acc ++ bl) := by
  intro bl
  induction bl with
  | nil => intro t acc; simp
  | cons b bl ih =>
    intro t acc
    rw [List.map_cons, List.cons_append]
    rw [decodeToks, ih, List.append_assoc]
    rfl

theorem quoteToks_cons (c : Char) (s : Str) :
    quoteToks (c :: s) =
      (if quoteSafe c then [Tok.ch c] else (utf8EncodeChar c).map Tok.byte) ++
        quoteToks s := by
  rw [quoteToks, List.flatMap_cons]
  rfl

theorem decodeToks_quoteToks :
    ∀ (s : Str) (cs : List Char),
      decodeToks (quoteToks s) (cs.flatMap utf8EncodeChar) = cs ++ s := by
  intro s
  induction s with
  | nil =>
    intro cs
    rw [quoteToks, List.flatMap_nil, decodeToks, utf8DecodeReplace_flat,
      List.append_nil]
  | cons c s ih =>
    intro cs
    by_cases hsafe : quoteSafe c
    · rw [quoteToks_cons, if_pos hsafe, List.singleton_append,
        decodeToks, utf8DecodeReplace_flat]
      have h0 := ih []
      rw [List.flatMap_nil] at h0
      rw [h0]
      simp
    · rw [quoteToks_cons, if_neg hsafe, decodeToks_byteRun]
      have harr : cs.flatMap utf8EncodeChar ++ utf8EncodeChar c =
          (cs ++ [c]).flatMap utf8EncodeChar := by
        rw [List.flatMap_append, List.flatMap_cons, List.flatMap_nil,
          List.append_nil]
      rw [harr, ih (cs ++ [c])]
      simp

/-- CPython's `unquote` undoes `quote` exactly. -/
theorem unquote_quote (s : Str) : unquote (quote s) = s := by
  rw [unquote, toks_quote]
  have := decodeToks_quoteToks s []
  rw [List.flatMap_nil] at this
  rw [this]
  rfl

/-! ### `build_index` properties -/

/-- Strict name order on directory entries (total order given distinct
names). -/
def fileLt (a b : Str × List Str) : Prop := strLtB a.1 b.1 = true

instance : IsAntisymm (Str × List Str) fileLt :=
  ⟨fun _ _ h1 h2 => absurd h2 (by simp [fileLt, strLtB_asymm h1])⟩

theorem sorted_strict_of_nodup {l : FS}
    (hs : List.Sorted fileLe l) (hnd : (l.map Prod.fst).Nodup) :
    List.Sorted fileLt l := by
  have hne : l.Pairwise fun a b => a.1 ≠ b.1 := (List.pairwise_map).mp hnd
  have hand := hs.and hne
  refine hand.imp ?_
  rintro a b ⟨hle, hneq⟩
  cases h : strLtB a.1 b.1
  · exfalso
    exact hneq (strLtB_conn h hle)
  · exact h

theorem sortFiles_eq_of_perm {ds1 ds2 : FS} (hperm : ds1.Perm ds2)
    (hnodup : (ds1.map Prod.fst).Nodup) :
    sortFiles ds1 = sortFiles ds2 := by
  have hp1 : (sortFiles ds1).Perm ds1 := List.perm_insertionSort fileLe ds1
  have hp2 : (sortFiles ds2).Perm ds2 := List.perm_insertionSort fileLe ds2
  have hnodup2 : (ds2.map Prod.fst).Nodup := (hperm.map Prod.fst).nodup_iff.mp hnodup
  have hs1 : List.Sorted fileLt (sortFiles ds1) :=
    sorted_strict_of_nodup (List.sorted_insertionSort fileLe ds1)
      ((hp1.map Prod.fst).nodup_iff.mpr hnodup)
  have hs2 : List.Sorted fileLt (sortFiles ds2) :=
    sorted_strict_of_nodup (List.sorted_insertionSort fileLe ds2)
      ((hp2.map Prod.fst).nodup_iff.mpr hnodup2)
  exact List.eq_of_perm_of_sorted (hp1.trans (hperm.trans hp2.symm)) hs1 hs2

/-- `build_index` depends on the dataset only as a set of files
(byte-identical output for any enumeration order of the directory). -/
theorem build_index_perm {ds1 ds2 : FS} (hperm : ds1.Perm ds2)
    (hnodup : (ds1.map Prod.fst).Nodup) :
    build_index ds1 = build_index ds2 := by
  have hf : (ds1.filter fun p => fnMatchPart p.1).Perm
      (ds2.filter fun p => fnMatchPart p.1) := hperm.filter _
  have hnd : ((ds1.filter fun p => fnMatchPart p.1).map Prod.fst).Nodup :=
    hnodup.sublist ((List.filter_sublist ds1).map Prod.fst)
  rw [build_index, build_index, sortFiles_eq_of_perm hf hnd]

/-- The per-file results: `build_index` reads nothing but the name and
the first line of each matching file. -/
theorem build_index_firstLine {ds1 ds2 : FS}
    (h : (sortFiles (ds1.filter fun p => fnMatchPart p.1)).map
          (fun p => (p.1, p.2.headD [])) =
        (sortFiles (ds2.filter fun p => fnMatchPart p.1)).map
          (fun p => (p.1, p.2.headD []))) :
    build_index ds1 = build_index ds2 := by
  rw [build_index, build_index]
  congr 1
  generalize sortFiles (ds1.filter fun p => fnMatchPart p.1) = l1 at h ⊢
  generalize sortFiles (ds2.filter fun p => fnMatchPart p.1) = l2 at h ⊢
  induction l1 generalizing l2 with
  | nil =>
    cases l2 with
    | nil => rfl
    | cons q l2 => exact absurd h (by simp)
  | cons p l1 ih =>
    cases l2 with
    | nil => exact absurd h (by simp)
    | cons q l2 =>
      simp only [List.map_cons, List.cons.injEq] at h
      obtain ⟨hpq, htl⟩ := h
      rw [Prod.mk.injEq] at hpq
      obtain ⟨hname, hhead⟩ := hpq
      rw [List.mapM_cons, List.mapM_cons, hname, hhead, ih l2 htl]

/-- Unfolding `build_index` into the per-file records: one index line per
matching file, in sorted filename order, from its first line only. -/
theorem build_index_shape {ds : FS} {out : Str}
    (h : build_index ds = some out) :
    ∃ recs : List Record,
      ((sortFiles (ds.filter fun p => fnMatchPart p.1)).mapM
        fun p => parse_line (p.2.headD [])) = some recs ∧
      recs.length = (ds.filter fun p => fnMatchPart p.1).length ∧
      out = (((sortFiles (ds.filter fun p => fnMatchPart p.1)).map Prod.fst).zip recs
        |>.map fun pr => mkIndexLine pr.1 pr.2).flatten ∧
      List.Sorted fileLe (sortFiles (ds.filter fun p => fnMatchPart p.1)) ∧
      (sortFiles (ds.filter fun p => fnMatchPart p.1)).Perm
        (ds.filter fun p => fnMatchPart p.1) := by
  have hlen : (sortFiles (ds.filter fun p => fnMatchPart p.1)).length =
      (ds.filter fun p => fnMatchPart p.1).length :=
    (List.perm_insertionSort fileLe _).length_eq
  rw [build_index] at h
  cases hm : (sortFiles (ds.filter fun p => fnMatchPart p.1)).mapM
      fun p => (parse_line (p.2.headD [])).map (mkIndexLine p.1) with
  | none => rw [hm] at h; exact absurd h (by simp)
  | some lines =>
    rw [hm] at h
    simp only [Option.map_some', Option.some.injEq] at h
    subst h
    -- relate the two mapMs
    suffices hsuff : ∀ l : FS, ∀ lines,
        (l.mapM fun p => (parse_line (p.2.headD [])).map (mkIndexLine p.1)) = some lines →
        ∃ recs, (l.mapM fun p => parse_line (p.2.headD [])) = some recs ∧
          recs.length = l.length ∧
          lines = ((l.map Prod.fst).zip recs).map fun pr => mkIndexLine pr.1 pr.2 by
      obtain ⟨recs, h1, h2, h3⟩ := hsuff _ _ hm
      exact ⟨recs, h1, by rw [h2, hlen], by rw [h3],
        List.sorted_insertionSort fileLe _, List.perm_insertionSort fileLe _⟩
    intro l
    induction l with
    | nil =>
      intro lines hl
      simp only [List.mapM_nil, Option.pure_def, Option.some.injEq] at hl
      subst hl
      exact ⟨[], rfl, rfl, rfl⟩
    | cons p l ih =>
      intro lines hl
      rw [List.mapM_cons] at hl
      cases hp : parse_line (p.2.headD []) with
      | none => rw [hp] at hl; exact absurd hl (by simp)
      | some r =>
        rw [hp] at hl
        cases hrest : l.mapM (fun p => (parse_line (p.2.headD [])).map (mkIndexLine p.1)) with
        | none => rw [hrest] at hl; exact absurd hl (by simp)
        | some lns =>
          rw [hrest] at hl
          simp only [Option.map_some', Option.bind_some, Option.bind_eq_bind,
            Option.some_bind, Option.pure_def, Option.some.injEq] at hl
          obtain ⟨recs, h1, h2, h3⟩ := ih lns hrest
          refine ⟨r :: recs, ?_, by simp [h2], ?_⟩
          · rw [List.mapM_cons, hp, h1]
            rfl
          · rw [← hl, h3]
            simp [List.zip]

/-! ### Remaining bridges -/

/-- Adjacent strictly-increasing check on a key list. -/
def chainLtB : List Key → Bool
  | [] => true
  | [_] => true
  | a :: b :: rest => keyLtB a b && chainLtB (b :: rest)

theorem chainLtB_pairwise :
    ∀ ks : List Key, chainLtB ks = true → ks.Pairwise kLt := by
  intro ks
  induction ks with
  | nil => intro _; exact List.Pairwise.nil
  | cons a rest ih =>
    intro h
    cases rest with
    | nil => simp
    | cons b rest2 =>
      simp only [chainLtB, Bool.and_eq_true] at h
      obtain ⟨hab, hchain⟩ := h
      have ihp := ih hchain
      refine List.pairwise_cons.mpr ⟨?_, ihp⟩
      intro a' ha'
      rcases List.mem_cons.mp ha' with rfl | ha''
      · exact hab
      · exact keyLtB_trans hab ((List.pairwise_cons.mp ihp).1 a' ha'')

theorem chainLeB_chain' :
    ∀ ks : List Key, chainLeB ks = true → ks.Chain' kLe := by
  intro ks
  induction ks with
  | nil => intro _; exact List.chain'_nil
  | cons a rest ih =>
    intro h
    cases rest with
    | nil => simp
    | cons b rest2 =>
      simp only [chainLeB, Bool.and_eq_true] at h
      exact List.chain'_cons.mpr ⟨h.1, ih h.2⟩

theorem read_index_sorted {lines : List Str} {out : List IndexRecord}
    (h : read_index lines = some out) :
    (out.map idxKey).Pairwise kLe := by
  rw [read_index] at h
  cases hm : lines.mapM parse_index_line with
  | none => rw [hm] at h; exact absurd h (by simp)
  | some l =>
    rw [hm] at h
    simp only [Option.map_some', Option.some.injEq] at h
    subst h
    have hs : List.Sorted idxLe (sortIndex l) := List.sorted_insertionSort idxLe l
    exact (List.pairwise_map).mpr hs

theorem parse_timestamp_utc {s : Str} {t : Timestamp}
    (h : parse_timestamp s = some t) : t.utc = true := by
  rw [parse_timestamp] at h
  cases hm : strptimeYmdHms s with
  | none => rw [hm] at h; exact absurd h (by simp)
  | some v =>
    rw [hm] at h
    simp only [Option.some_bind] at h
    split_ifs at h with hv
    have ht := (Option.some.injEq _ _).mp h
    rw [← ht]

/-- Non-five-field input always fails. -/
theorem parse_fields_ne_five {s : Str} (h : (splitSp s).length ≠ 5) :
    parse_fields s = none := by
  rw [parse_fields.eq_def]
  split
  · rename_i heq
    rw [heq] at h
    exact absurd rfl h
  · rfl

/-- Full characterisation of `parse_line` on a five-field line. -/
theorem parse_line_five {line proj page ts cnt bt : Str}
    (hfs : splitSp line.dropLast = [proj, page, ts, cnt, bt]) :
    (parse_line line = none ↔
      parse_timestamp ts = none ∨ pyInt cnt = none ∨ pyInt bt = none) ∧
    ∀ r, parse_line line = some r →
      r.project = proj ∧ r.page = unquote page ∧
      parse_timestamp ts = some r.timestamp ∧ pyInt cnt = some r.count ∧
      pyInt bt = some r.bytes_trans ∧ r.timestamp.utc = true := by
  rw [parse_line, parse_fields.eq_def, hfs]
  cases hts : parse_timestamp ts with
  | none =>
    exact ⟨by simp [hts], fun r hr => absurd hr (by simp [hts])⟩
  | some t =>
    cases hc : pyInt cnt with
    | none =>
      exact ⟨by simp [hts, hc], fun r hr => absurd hr (by simp [hts, hc])⟩
    | some c =>
      cases hb : pyInt bt with
      | none =>
        exact ⟨by simp [hts, hc, hb], fun r hr => absurd hr (by simp [hts, hc, hb])⟩
      | some b =>
        refine ⟨by simp [hts, hc, hb], ?_⟩
        intro r hr
        simp only [hts, hc, hb, Option.some.injEq] at hr
        subst hr
        exact ⟨rfl, rfl, rfl, rfl, rfl, parse_timestamp_utc hts⟩

/-- The literal fifteen-character `YYYYMMDD-HHMMSS` shape named by the
specification (for comparison with the implementation's laxer strptime
acceptance): eight digits, a dash, six digits. -/
def strictTimestampShape (s : Str) : Bool :=
  match s with
  | [y1, y2, y3, y4, m1, m2, d1, d2, dash, h1, h2, mi1, mi2, s1, s2] =>
    y1.isDigit && y2.isDigit && y3.isDigit && y4.isDigit &&
    m1.isDigit && m2.isDigit && d1.isDigit && d2.isDigit &&
    dash = '-' &&
    h1.isDigit && h2.isDigit && mi1.isDigit && mi2.isDigit &&
    s1.isDigit && s2.isDigit
  | _ => false

/-! ### Sample data for witnesses and counterexamples -/

def ts0 : Timestamp := ⟨2009, 1, 1, 0, 0, 0, true⟩

def smallFS : FS :=
  [(str "part-000.gz",
    [str "en Main_Page 20090101-000000 5 120\n",
     str "en Main_Page 20090101-010000 3 90\n",
     str "en Other_Page 20090101-000000 1 30\n"]),
   (str "part-001.gz",
    [str "en Zebra 20090101-000000 2 40\n"])]

def smallIdx : List IndexRecord :=
  [⟨str "part-000.gz", str "en", str "Main_Page"⟩,
   ⟨str "part-001.gz", str "en", str "Zebra"⟩]

def qMain : Key := (str "en", str "Main_Page")
def qOther : Key := (str "en", str "Other_Page")
def qZebra : Key := (str "en", str "Zebra")
def qLow : Key := (str "aa", str "A")

def kA : Key := (str "en", str "A")
def kB : Key := (str "en", str "B")
def kC : Key := (str "en", str "C")
def rA1 : Record := ⟨str "en", str "A", ts0, 1, 10⟩
def rA2 : Record := ⟨str "en", str "A", ts0, 2, 20⟩
def rA3 : Record := ⟨str "en", str "A", ts0, 3, 30⟩
def rB1 : Record := ⟨str "en", str "B", ts0, 4, 40⟩
def rB2 : Record := ⟨str "en", str "B", ts0, 5, 50⟩
def rC1 : Record := ⟨str "en", str "C", ts0, 6, 60⟩

/-! ### The claims -/

/-- C1: for every monotonically non-decreasing query sequence issued to
one `Finder`, the list returned by `Finder.search` on each query equals
what the stateless `search` returns for that query alone (same index,
same dataset), under the global sort invariant. -/
theorem claim_C1 (fs : FS) (idx : List IndexRecord) (qs : List Key)
    (hg : globalSortB fs idx = true) (hqs : chainLeB qs = true) :
    (Finder.run fs (Finder.init idx) qs).1 = qs.map (search fs idx) :=
  finder_equiv hg qs (chainLeB_chain' qs hqs)

/-- Witness for C1 on a concrete two-partition dataset and a
non-decreasing query log exercising the cache hit, the in-partition
continuation and the partition switch. -/
theorem claim_C1_witness :
    (Finder.run smallFS (Finder.init smallIdx)
      [qMain, qMain, qOther, qZebra]).1 =
    [qMain, qMain, qOther, qZebra].map (search smallFS smallIdx) :=
  claim_C1 smallFS smallIdx [qMain, qMain, qOther, qZebra]
    (by decide) (by decide)

/-- The full `find_le` / `read_index` contract of claim C2. -/
def C2Prop (entries : List IndexRecord) (q : Key) : Prop :=
  (find_le entries q = none ↔ ∀ e ∈ entries, kLt q (idxKey e)) ∧
  (∀ e, find_le entries q = some e →
    e ∈ entries ∧ kLe (idxKey e) q ∧
    (∀ e' ∈ entries, kLe (idxKey e') q → kLe (idxKey e') (idxKey e)) ∧
    (∀ e' ∈ entries, e' ≠ e → kLe (idxKey e') q → kLt (idxKey e') (idxKey e))) ∧
  (∀ lines out, read_index lines = some out → (out.map idxKey).Pairwise kLe) ∧
  read_index [str "bbb.gz en B\n", str "aaa.gz en A\n"] =
    some [⟨str "aaa.gz", str "en", str "A"⟩, ⟨str "bbb.gz", str "en", str "B"⟩]

/-- C2: over an index of entries strictly sorted by `(project, page)`,
`find_le q` returns the unique entry with the greatest key `≤ q` and
fails (`NotFound`) exactly when `q` precedes every indexed key; and the
collection `read_index` loads is ordered by `(project, page)`, not by
partition file name (see the last conjunct, whose file names arrive in
the opposite order). -/
theorem claim_C2 (entries : List IndexRecord) (q : Key)
    (hs : chainLtB (entries.map idxKey) = true) : C2Prop entries q := by
  have hstrict : (entries.map idxKey).Pairwise kLt := chainLtB_pairwise _ hs
  have hle : (entries.map idxKey).Pairwise kLe := hstrict.imp fun h => keyLeB_of_lt h
  refine ⟨find_le_none_iff hle, ?_, ?_, by decide⟩
  · intro e he
    obtain ⟨hmem, hkey, hmax⟩ := find_le_some_spec hle he
    refine ⟨hmem, hkey, hmax, ?_⟩
    intro e' he' hne hle'
    have h1 : kLe (idxKey e') (idxKey e) := hmax e' he' hle'
    rcases keyLeB_iff.mp h1 with hlt | heq
    · exact hlt
    · exact absurd (strict_key_inj hstrict he' hmem heq) hne
  · intro lines out hout
    exact read_index_sorted hout

/-- Witness for C2 on a strictly sorted two-entry index. -/
theorem claim_C2_witness : C2Prop smallIdx qOther :=
  claim_C2 smallIdx qOther (by decide)

/-- The grouped-scan contract of claim C3. -/
def C3Prop (q : Key) (gs : List KGroup) : Prop :=
  (∀ pre g post, gs = pre ++ (q, g) :: post →
    scanGroups q gs = g.map resTup ∧
    (finderScan q gs).res = g.map resTup ∧
    (finderScan q gs).rem = post) ∧
  (∀ pre k g post, gs = pre ++ (k, g) :: post →
    (∀ kk ∈ pre.map Prod.fst, kLt kk q) → kLt q k →
    scanGroups q gs = [] ∧
    (finderScan q gs).res = [] ∧
    (finderScan q gs).rem = post)

/-- C3: over a key-sorted grouped sequence, the scan loops of both
searchers skip every group with key `< q`; on the group with key `= q`
they return exactly that group's records mapped to
`(timestamp, count, bytes_trans)` in record order; and at the first
group with key `> q` they stop with the empty result, leaving every
later group unconsumed (the remaining iterator is exactly the suffix
after the stopping group). -/
theorem claim_C3 (q : Key) (gs : List KGroup)
    (hs : chainLtB (gs.map Prod.fst) = true) : C3Prop q gs := by
  have hstrict : (gs.map Prod.fst).Pairwise kLt := chainLtB_pairwise _ hs
  constructor
  · intro pre g post hsplit
    obtain ⟨h1, h2⟩ := scanGroups_match hstrict hsplit
    exact ⟨h1, by rw [finderScan_res, h1], h2⟩
  · intro pre k g post hsplit hpre hqk
    obtain ⟨h1, h2⟩ := scanGroups_overshoot hsplit hpre hqk
    exact ⟨h1, by rw [finderScan_res, h1], h2⟩

/-- Witness for C3: scanning for the middle key of a three-group
sequence touches the first two groups only. -/
theorem claim_C3_witness :
    C3Prop kB [(kA, [rA1]), (kB, [rB1, rB2]), (kC, [rC1])] :=
  claim_C3 kB [(kA, [rA1]), (kB, [rB1, rB2]), (kC, [rC1])] (by decide)

/-- The reopen/continue contract of the amended claim C4, for one
`Finder.search` call that is not served from the one-slot memo cache. -/
def C4Prop (fs : FS) (f : Finder) (q : Key) (e : IndexRecord)
    (recs : List Record) : Prop :=
  ((f.curr_file_path ≠ some e.file_name ∨
      ∃ lk, f.last_key = some lk ∧ kLe q lk) →
    (f.search fs q).2.2 =
      (match f.curr_file_path with
       | some old => [FEvent.closeF old]
       | none => []) ++ [FEvent.openF e.file_name] ∧
    (f.search fs q).2.1.curr_file_path = some e.file_name ∧
    (f.search fs q).2.1.curr_iter = (finderScan q (groupRecords recs)).rem ∧
    (f.search fs q).1 = Outcome.results (scanGroups q (groupRecords recs))) ∧
  ((f.curr_file_path = some e.file_name ∧
      ∃ lk, f.last_key = some lk ∧ kLt lk q) →
    (f.search fs q).2.2 = [] ∧
    (f.search fs q).2.1.curr_file_path = f.curr_file_path ∧
    (f.search fs q).2.1.curr_iter = (finderScan q f.curr_iter).rem ∧
    (f.search fs q).1 = Outcome.results (scanGroups q f.curr_iter))

/-- C4 (amended): on a `Finder.search` call that is *not* answered by the
`lru_cache(1)` memo, the open stream and grouped-scan iterator are
discarded and replaced by a fresh stream on the resolved partition if
and only if that partition differs from the currently open one or the
last key seen is `≥` the query key (the event trace shows the previous
stream closed before the new one is opened); otherwise the existing
iterator is consumed from its current cursor position with no stream
events at all. -/
theorem claim_C4 (fs : FS) (f : Finder) (q : Key) (e : IndexRecord)
    (recs : List Record)
    (hmiss : ∀ r, f.cache ≠ some (q, r))
    (hfle : find_le f.index q = some e)
    (hrecs : partRecs fs e.file_name = some recs) :
    C4Prop fs f q e recs := by
  have hsb : f.search fs q = f.searchBody fs q := by
    cases hc : f.cache with
    | none => simp only [Finder.search, hc]
    | some p =>
      obtain ⟨qc, r⟩ := p
      have hqc : ¬ qc = q := by
        intro hqq
        exact hmiss r (by rw [← hqq]; exact hc)
      simp only [Finder.search, hc, if_neg hqc]
  have hopen : ∀ g : Unit, f.openScan fs q e.file_name =
      (.results (finderScan q (groupRecords recs)).res,
       { f with curr_file_path := some e.file_name,
                curr_iter := (finderScan q (groupRecords recs)).rem,
                last_key := optOr (finderScan q (groupRecords recs)).lk f.last_key,
                cache := some (q, (finderScan q (groupRecords recs)).res) },
       (match f.curr_file_path with
        | some old => [FEvent.closeF old]
        | none => []) ++ [FEvent.openF e.file_name]) := by
    intro g
    rw [Finder.openScan, hrecs]
  constructor
  · intro hcond
    by_cases hpath : f.curr_file_path = some e.file_name
    · rcases hcond with hne | ⟨lk, hlk, hql⟩
      · exact absurd hpath hne
      · have hb : f.searchBody fs q = f.openScan fs q e.file_name := by
          simp only [Finder.searchBody, hfle, if_pos hpath, hlk, if_pos hql]
        rw [hsb, hb, hopen ()]
        exact ⟨rfl, rfl, rfl, by rw [finderScan_res]⟩
    · have hb : f.searchBody fs q = f.openScan fs q e.file_name := by
        simp only [Finder.searchBody, hfle, if_neg hpath]
      rw [hsb, hb, hopen ()]
      exact ⟨rfl, rfl, rfl, by rw [finderScan_res]⟩
  · rintro ⟨hpath, lk, hlk, hlt⟩
    have hql : ¬ keyLeB q lk = true := by
      intro hle
      have := keyLtB_of_le_of_lt hle hlt
      have h2 : keyLtB q q = true := this
      rw [keyLtB_irrefl] at h2
      exact Bool.noConfusion h2
    have hb : f.searchBody fs q = f.contScan q := by
      simp only [Finder.searchBody, hfle, if_pos hpath, hlk, if_neg hql]
    have hcont : f.contScan q =
        (.results (finderScan q f.curr_iter).res,
         { f with curr_iter := (finderScan q f.curr_iter).rem,
                  last_key := optOr (finderScan q f.curr_iter).lk f.last_key,
                  cache := some (q, (finderScan q f.curr_iter).res) },
         []) := by
      rw [Finder.contScan]
    rw [hsb, hb, hcont]
    exact ⟨rfl, rfl, rfl, by rw [finderScan_res]⟩

/-- Witness for C4 (amended): a first call on a fresh `Finder`. -/
theorem claim_C4_witness :
    C4Prop smallFS (Finder.init smallIdx) qMain
      ⟨str "part-000.gz", str "en", str "Main_Page"⟩
      [⟨str "en", str "Main_Page", ts0, 5, 120⟩,
       ⟨str "en", str "Main_Page", ⟨2009, 1, 1, 1, 0, 0, true⟩, 3, 90⟩,
       ⟨str "en", str "Other_Page", ts0, 1, 30⟩] :=
  claim_C4 smallFS (Finder.init smallIdx) qMain _ _
    (fun r h => Option.noConfusion h) (by decide) (by decide)

/-- The state of the sample `Finder` after its first query. -/
def c4CexCall1 : Finder := ((Finder.init smallIdx).search smallFS qMain).2.1

/-- Counterexample to C4 as stated: an exact repeat of the previous call
is served from the `lru_cache(1)` memo.  The reopen condition of the
claim holds (same partition resolved, `last_key ≥` query key), yet no
stream is closed or opened (the event trace is empty) and the whole
state — stream, iterator and cursor — is kept, not discarded. -/
theorem claim_C4_cex :
    (c4CexCall1.curr_file_path = some (str "part-000.gz") ∧
     c4CexCall1.last_key = some qMain ∧
     find_le c4CexCall1.index qMain =
       some ⟨str "part-000.gz", str "en", str "Main_Page"⟩ ∧
     keyLeB qMain qMain = true) ∧
    (c4CexCall1.search smallFS qMain).2.2 = [] ∧
    (c4CexCall1.search smallFS qMain).2.1 = c4CexCall1 := by
  decide

/-- The outcome contract of the amended claim C5. -/
def C5Prop (fs : FS) (idx : List IndexRecord) (q : Key) : Prop :=
  ((∀ e ∈ idx, kLt q (idxKey e)) →
    search fs idx q = Outcome.notFound ∧
    (Finder.init idx).search fs q = (Outcome.notFound, Finder.init idx, [])) ∧
  (∀ e recs, find_le idx q = some e → partRecs fs e.file_name = some recs →
    (∀ r ∈ recs, recKey r ≠ q) →
    search fs idx q = Outcome.results [] ∧
    ((Finder.init idx).search fs q).1 = Outcome.results [])

/-- C5 (amended): when the query key is smaller than every indexed key,
both `search` and `Finder.search` propagate `NotFound` (the uncaught
`ValueError` of `find_le`) to the caller — it is *not* converted into an
empty result; a query key covered by the index but matching no group
returns the ordinary empty list. -/
theorem claim_C5 (fs : FS) (idx : List IndexRecord) (q : Key)
    (hs : chainLeB (idx.map idxKey) = true) : C5Prop fs idx q := by
  have hle : (idx.map idxKey).Pairwise kLe := chainLeB_pairwise _ hs
  constructor
  · intro hall
    have hfle : find_le idx q = none := (find_le_none_iff hle).mpr hall
    constructor
    · simp only [search, hfle]
    · have h1 : (Finder.init idx).search fs q = (Finder.init idx).searchBody fs q := rfl
      rw [h1, Finder.searchBody]
      have h2 : (Finder.init idx).index = idx := rfl
      rw [h2, hfle]
  · intro e recs hfle hrecs hnomatch
    have hnotin : q ∉ (groupRecords recs).map Prod.fst := by
      intro hmem
      obtain ⟨p, hp, hpk⟩ := List.mem_map.mp hmem
      obtain ⟨r, hr, hrk⟩ := groupRecords_key_mem hp
      exact hnomatch r hr (by rw [hrk, hpk])
    have hscan : scanGroups q (groupRecords recs) = [] := scanGroups_none _ hnotin
    constructor
    · simp only [search, hfle, hrecs, hscan]
    · have h1 : (Finder.init idx).search fs q = (Finder.init idx).searchBody fs q := rfl
      have h2 : (Finder.init idx).searchBody fs q =
          (Finder.init idx).openScan fs q e.file_name := by
        rw [Finder.searchBody]
        have h3 : (Finder.init idx).index = idx := rfl
        rw [h3, hfle]
        have h4 : ¬ (Finder.init idx).curr_file_path = some e.file_name := by
          intro hcon
          exact Option.noConfusion hcon
        simp only [if_neg h4]
      rw [h1, h2, Finder.openScan, hrecs]
      simp only [finderScan_res, hscan]

/-- Witness for C5 (amended) at a concrete index and dataset. -/
theorem claim_C5_witness : C5Prop smallFS smallIdx qOther :=
  claim_C5 smallFS smallIdx qOther (by decide)

/-- Counterexample to C5 as stated: for a query key below every indexed
key the code raises (`NotFound` propagates); the caller does *not*
receive an empty result set, contradicting the claim's final clause that
both conditions surface as an empty result. -/
theorem claim_C5_cex :
    search smallFS smallIdx qLow = Outcome.notFound ∧
    search smallFS smallIdx qLow ≠ Outcome.results [] ∧
    ((Finder.init smallIdx).search smallFS qLow).1 = Outcome.notFound ∧
    ((Finder.init smallIdx).search smallFS qLow).1 ≠ Outcome.results [] := by
  decide

/-- The parsing contract of the amended claim C6. -/
def C6Prop : Prop :=
  (∀ line : Str, (splitSp line.dropLast).length ≠ 5 → parse_line line = none) ∧
  (∀ line proj page ts cnt bt : Str,
    splitSp line.dropLast = [proj, page, ts, cnt, bt] →
    (parse_line line = none ↔
      parse_timestamp ts = none ∨ pyInt cnt = none ∨ pyInt bt = none) ∧
    ∀ r, parse_line line = some r →
      r.project = proj ∧ r.page = unquote page ∧
      parse_timestamp ts = some r.timestamp ∧ pyInt cnt = some r.count ∧
      pyInt bt = some r.bytes_trans ∧ r.timestamp.utc = true)

/-- C6 (amended): `parse_line` fails exactly when the line (less its
final character) does not split into exactly five space-separated
fields, or the count or bytes-transferred field is not a Python integer
literal, or the timestamp is rejected by
`strptime(_, '%Y%m%d-%H%M%S')` — an acceptance laxer than the literal
fifteen-character `YYYYMMDD-HHMMSS` shape (underfull digit groups can
match) though stricter about calendar validity; on success the page is
the percent-decoded page field and the timestamp is the parsed instant
tagged as UTC. -/
theorem claim_C6 : C6Prop := by
  constructor
  · intro line h
    exact parse_fields_ne_five h
  · intro line proj page ts cnt bt hfs
    exact parse_line_five hfs

/-- Witness for C6: the failure condition evaluated on concrete lines. -/
theorem claim_C6_witness :
    parse_line (str "en X 20090101-000000 5 bad\n") = none ∧
    parse_line (str "en X 20090101-000000 5 120\n") =
      some ⟨str "en", str "X", ts0, 5, 120⟩ := by
  constructor
  · exact ((claim_C6.2 (str "en X 20090101-000000 5 bad\n") (str "en") (str "X")
      (str "20090101-000000") (str "5") (str "bad") (by decide)).1).mpr
      (Or.inr (Or.inr (by decide)))
  · decide

/-- Counterexample to C6 as stated: the timestamp `2009011-000000` does
not match the fixed pattern `YYYYMMDD-HHMMSS` (it has seven digits
before the dash), yet `parse_line` succeeds on it — `strptime` accepts a
one-digit day — so "fails iff … the timestamp does not match
YYYYMMDD-HHMMSS" is false. -/
theorem claim_C6_cex :
    strictTimestampShape (str "2009011-000000") = false ∧
    parse_line (str "en X 2009011-000000 5 120\n") =
      some ⟨str "en", str "X", ts0, 5, 120⟩ := by
  decide

/-- C7: `parse_and_group_records` groups parsed records into maximal
runs of consecutive records sharing one `(project, page)` key, in input
order: the groups concatenate back to the input, every group is a
non-empty run of records carrying exactly its key, adjacent groups have
distinct keys, and the concrete `[A,A,A,B,B,C]` instance yields
`[(A,[r1,r2,r3]), (B,[r4,r5]), (C,[r6])]`. -/
theorem claim_C7 :
    (∀ rs : List Record,
      ((groupRecords rs).map Prod.snd).flatten = rs ∧
      (∀ p ∈ groupRecords rs, p.2 ≠ [] ∧ ∀ r ∈ p.2, recKey r = p.1) ∧
      (groupRecords rs).Chain' (fun a b => a.1 ≠ b.1)) ∧
    (∀ (lines : List Str) (recs : List Record),
      lines.mapM parse_line = some recs →
      parse_and_group_records lines = some (groupRecords recs)) ∧
    groupRecords [rA1, rA2, rA3, rB1, rB2, rC1] =
      [(kA, [rA1, rA2, rA3]), (kB, [rB1, rB2]), (kC, [rC1])] := by
  refine ⟨?_, ?_, by decide⟩
  · intro rs
    exact ⟨groupRecords_flatten rs, groupRecords_mem rs, groupRecords_chain_ne rs⟩
  · intro lines recs h
    rw [parse_and_group_records, h]
    rfl

/-- Witness for C7's conditional conjunct at a concrete input. -/
theorem claim_C7_witness :
    parse_and_group_records [str "en A 20090101-000000 1 10\n"] =
      some (groupRecords [⟨str "en", str "A", ts0, 1, 10⟩]) :=
  claim_C7.2.1 [str "en A 20090101-000000 1 10\n"]
    [⟨str "en", str "A", ts0, 1, 10⟩] (by decide)

/-- The determinism contract of claim C8. -/
def C8Prop (ds1 ds2 : FS) : Prop :=
  build_index ds1 = build_index ds2 ∧
  (∀ ds3 : FS,
    (sortFiles (ds1.filter fun p => fnMatchPart p.1)).map
        (fun p => (p.1, p.2.headD [])) =
      (sortFiles (ds3.filter fun p => fnMatchPart p.1)).map
        (fun p => (p.1, p.2.headD [])) →
    build_index ds1 = build_index ds3) ∧
  (∀ out : Str, build_index ds1 = some out →
    ∃ recs : List Record,
      ((sortFiles (ds1.filter fun p => fnMatchPart p.1)).mapM
        fun p => parse_line (p.2.headD [])) = some recs ∧
      recs.length = (ds1.filter fun p => fnMatchPart p.1).length ∧
      out = (((sortFiles (ds1.filter fun p => fnMatchPart p.1)).map Prod.fst).zip recs
        |>.map fun pr => mkIndexLine pr.1 pr.2).flatten ∧
      List.Sorted fileLe (sortFiles (ds1.filter fun p => fnMatchPart p.1)) ∧
      (sortFiles (ds1.filter fun p => fnMatchPart p.1)).Perm
        (ds1.filter fun p => fnMatchPart p.1))

/-- C8: `build_index` is deterministic in the dataset — any two
enumerations of the same directory (permutations with distinct file
names) produce the byte-identical artifact; it depends on nothing but
the names and first lines of the files matching `part-*.gz`; and its
output is one index line per matching file, in sorted filename order,
derived from the parse of that file's first line. -/
theorem claim_C8 (ds1 ds2 : FS)
    (hnodup : (ds1.map Prod.fst).Nodup) (hperm : ds1.Perm ds2) :
    C8Prop ds1 ds2 := by
  refine ⟨build_index_perm hperm hnodup, ?_, ?_⟩
  · intro ds3 h
    exact build_index_firstLine h
  · intro out h
    exact build_index_shape h

/-- Witness for C8: the sample dataset with a non-matching extra file,
enumerated in two different orders. -/
theorem claim_C8_witness :
    C8Prop (smallFS ++ [(str "readme.txt", [str "hello\n"])])
      ((smallFS ++ [(str "readme.txt", [str "hello\n"])]).reverse) :=
  claim_C8 _ _ (by decide) (by decide)

/-- C9 (amended): `parse_line` always removes the final character before
splitting; for a line ending in a newline this removes exactly the
terminator, while for a well-formed five-field line lacking the
newline the last character of the bytes-transferred field is dropped, so
the parse yields an altered `bytes_trans` or fails — except in the
degenerate case where the truncated numeral denotes the same integer
(e.g. `"120"` truncates to `"12"`, but `"00"` truncates to `"0"` with
the same value `0`). -/
theorem claim_C9 :
    (∀ line : Str, parse_line line = parse_fields line.dropLast) ∧
    (∀ s : Str, parse_line (s ++ ['\n']) = parse_fields s) ∧
    parse_line (str "en X 20090101-000000 5 120") =
      some ⟨str "en", str "X", ts0, 5, 12⟩ ∧
    parse_fields (str "en X 20090101-000000 5 120") =
      some ⟨str "en", str "X", ts0, 5, 120⟩ ∧
    parse_line (str "en X 20090101-000000 5 7") = none ∧
    parse_fields (str "en X 20090101-000000 5 7") =
      some ⟨str "en", str "X", ts0, 5, 7⟩ := by
  refine ⟨fun line => rfl, ?_, by decide, by decide, by decide, by decide⟩
  intro s
  rw [parse_line, List.dropLast_concat]

/-- Counterexample to C9 as stated: the well-formed five-field line with
bytes field `00` and no trailing newline is parsed into *exactly* the
record obtained by parsing it as written — the value is not altered and
the parse does not fail, against "parsed into a Record with an altered
bytes_transferred value (or fails) rather than being parsed as
written". -/
theorem claim_C9_cex :
    parse_line (str "en X 20090101-000000 5 00") =
      some ⟨str "en", str "X", ts0, 5, 0⟩ ∧
    parse_fields (str "en X 20090101-000000 5 00") =
      some ⟨str "en", str "X", ts0, 5, 0⟩ ∧
    parse_line (str "en X 20090101-000000 5 00") =
      parse_fields (str "en X 20090101-000000 5 00") := by
  decide

/-- C10: the page stored in the index artifact is
`quote(unquote(raw_page))`; on a raw field where this round trip is not
the identity (such as the needlessly escaped `%41`) the artifact stores
a different string than the partition file, yet lookups stay consistent
because decode-after-encode is the identity, and both index loading and
record parsing compare percent-decoded pages. -/
theorem claim_C10 :
    (∀ raw : Str, unquote (quote (unquote raw)) = unquote raw) ∧
    quote (unquote (str "%41")) = str "A" ∧
    str "A" ≠ str "%41" ∧
    build_index [(str "part-000.gz", [str "en %41 20090101-000000 1 2\n"])] =
      some (str "part-000.gz en A\n") ∧
    parse_index_line (str "part-000.gz en A\n") =
      some ⟨str "part-000.gz", str "en", str "A"⟩ ∧
    parse_line (str "en %41 20090101-000000 1 2\n") =
      some ⟨str "en", str "A", ts0, 1, 2⟩ := by
  exact ⟨fun raw => unquote_quote (unquote raw), by decide, by decide,
    by decide, by decide, by decide⟩
